import Mathlib

/-!
Verification of the `perfect` package: a searcher for perfect hash functions
over a fixed set of byte strings.  The definitions below are a shallow
embedding of `perfect.go`:

* Go `uint` is 64-bit; we model its values as `Nat` reduced modulo `W = 2^64`
  at every operation that can overflow.
* Go `string` is a byte sequence; we model it as `List Nat`.
* Go runtime panics (index out of range on an empty coefficient slice, the
  out-of-bounds string access reachable in `Coef.Apply` because Go's `int`
  negation wraps at `math.MinInt64`, and `panic("unsupported operation")`)
  are modelled by `Option` results (`none` = panic) and by the
  `SearchResult.fault` outcome.
* The unbounded `for` loop of `HashFinder.Search` is modelled with explicit
  fuel; `SearchResult.fuelOut` marks fuel exhaustion, so a run that returns
  `fuelOut` for every fuel is a run that never terminates.
-/

namespace Perfect

/-- Go `uint` arithmetic is 64-bit: values live below `W = 2^64`. -/
abbrev W : Nat := 2 ^ 64

/-- A Go `string` as its sequence of byte values. -/
abbrev Str := List Nat

/-- Go `Op` is an `int`; `opUndefined Op = iota` gives the constants 0..3. -/
def opUndefined : Int := 0

/-- `OpAdd` (addition), value 1. -/
def OpAdd : Int := 1

/-- `OpXor` (xor), value 2. -/
def OpXor : Int := 2

/-- `OpMul` (multiplication), value 3. -/
def OpMul : Int := 3

/-- `Coef` is a single coefficient in the hash function (perfect.go). -/
structure Coef where
  IndexApplied : Int
  Value : Nat
  MaxValue : Nat
  StartValue : Nat
  OnlyPow2 : Bool
  Op : Int
deriving DecidableEq

/-- Go `func (c *Coef) init()`: reset `Value` to `StartValue` (1 when the
start value is 0) and default an unset `Op` to `OpAdd`. -/
def Coef.init (c : Coef) : Coef :=
  let c := if c.StartValue = 0 then { c with Value := 1 } else { c with Value := c.StartValue }
  if c.Op = 0 then { c with Op := OpAdd } else c

/-- Go `func (c *Coef) Increment()`: double the value when `OnlyPow2`,
otherwise add one; 64-bit `uint` arithmetic wraps modulo `W`. -/
def Coef.Increment (c : Coef) : Coef :=
  if c.OnlyPow2 then { c with Value := c.Value * 2 % W }
  else { c with Value := (c.Value + 1) % W }

/-- Go `func (c *Coef) Saturated() bool { return c.Value >= c.MaxValue }`. -/
def Coef.Saturated (c : Coef) : Bool := decide (c.MaxValue ≤ c.Value)

/-- Go `int` (64-bit) negation: `-x` wraps at `math.MinInt64`, so negating
the minimum value yields itself.  This agrees with exact negation at every
other representable index. -/
def negInt64 (x : Int) : Int := if x = -(2 ^ 63) then -(2 ^ 63) else -x

/-- The `var a uint` computation of `Coef.Apply`: the byte at `IndexApplied`
(negative indexes count from the end, `kw[len(kw)+idx]`) times the
coefficient value, or 0 when the index is out of range for `kw`.  The
negative-index guard `-idx <= len(kw)` uses Go's wrapping negation
(`negInt64`), so at `IndexApplied = -2^63` the guard still passes and the
access `kw[len(kw)+idx]` has a negative index: a Go runtime panic, modelled
as `none`. -/
def Coef.contribution (coef : Coef) (kw : Str) : Option Nat :=
  let idx := coef.IndexApplied
  if idx < 0 ∧ negInt64 idx ≤ (kw.length : Int) then
    if 0 ≤ (kw.length : Int) + idx then
      some (kw.getD ((kw.length : Int) + idx).toNat 0 * coef.Value % W)
    else none
  else if 0 ≤ idx ∧ idx < (kw.length : Int) then
    some (kw.getD idx.toNat 0 * coef.Value % W)
  else some 0

/-- The `switch coef.Op` of `Coef.Apply`: combine the contribution `a` into
the running hash `h`.  The `default: panic("unsupported operation")` arm is
modelled as `none`. -/
def combineOp (op : Int) (h a : Nat) : Option Nat :=
  if op = OpAdd then some ((h + a) % W)
  else if op = OpXor then some (h ^^^ a)
  else if op = OpMul then some (h * a % W)
  else none

/-- Go `func (coef *Coef) Apply(h uint, kw string) uint`: compute the byte
contribution `a` (propagating its possible index panic) and combine it into
`h` per `coef.Op`. -/
def Coef.Apply (coef : Coef) (h : Nat) (kw : Str) : Option Nat :=
  match coef.contribution kw with
  | none => none
  | some a => combineOp coef.Op h a

/-- Go `func (coef *Coef) config(defaultMax uint) error`: initialize and fill
an unset `MaxValue` from `defaultMax`, failing when both are unset. -/
def Coef.config (c : Coef) (defaultMax : Nat) : Except String Coef :=
  let c := c.init
  if c.MaxValue = 0 then
    if defaultMax = 0 then
      .error "default max coefficient need be set and positive for input"
    else .ok { c with MaxValue := defaultMax }
  else .ok c

/-- `HashSequential` computes `h = len(s)*LenCoef + op(s[i])*Coefs[i]` for
each coefficient (perfect.go). -/
structure HashSequential where
  LenCoef : Coef
  Coefs : List Coef
deriving DecidableEq

/-- The `for i := range coefs` loop of `HashSequential.ConfigCoefs`. -/
def configCoefList (defaultMax : Nat) : List Coef → Except String (List Coef)
  | [] => .ok []
  | c :: rest =>
    match c.config defaultMax with
    | .error e => .error e
    | .ok c' =>
      match configCoefList defaultMax rest with
      | .error e => .error e
      | .ok rest' => .ok (c' :: rest')

/-- Go `func (hs *HashSequential) ConfigCoefs(defaultMax uint) error`:
configure every byte coefficient, then the length coefficient. -/
def HashSequential.ConfigCoefs (hs : HashSequential) (defaultMax : Nat) :
    Except String HashSequential :=
  match configCoefList defaultMax hs.Coefs with
  | .error e => .error e
  | .ok coefs =>
    match hs.LenCoef.config defaultMax with
    | .error e => .error e
    | .ok lc => .ok { LenCoef := lc, Coefs := coefs }

/-- The `for i := range hs.Coefs` loop of `HashSequential.Hash`: thread the
running hash through `Coef.Apply`; `none` propagates a panic. -/
def applyCoefs : List Coef → Nat → Str → Option Nat
  | [], h, _ => some h
  | c :: rest, h, s =>
    match c.Apply h s with
    | none => none
    | some h' => applyCoefs rest h' s

/-- Go `func (hs *HashSequential) Hash(dataToHash string) uint`:
`h := uint(len(dataToHash)) * hs.LenCoef.Value`, then apply each coefficient. -/
def HashSequential.Hash (hs : HashSequential) (dataToHash : Str) : Option Nat :=
  applyCoefs hs.Coefs (dataToHash.length * hs.LenCoef.Value % W) dataToHash

/-- The tail of `HashSequential.Increment` once the carry loop has stopped:
Go reads `coefs[len(coefs)-1].Saturated()` unconditionally, resetting the
last coefficient and signalling a carry into the length coefficient. -/
def lastCheck : List Coef → List Coef × Bool
  | [] => ([], false)
  | [c] => if c.Saturated then ([c.init], true) else ([c], false)
  | c :: c2 :: rest =>
    let r := lastCheck (c2 :: rest)
    (c :: r.1, r.2)

/-- The carry loop of `HashSequential.Increment`
(`for i := 0; coefs[i].Saturated() && i < len(coefs)-1; i++`), with the digit
at the current position `i` passed separately from the digits after it: a
saturated digit is re-initialized and the carry moves to the next digit; when
the loop stops (or the current digit is the last one) the unconditional
last-element saturation check of the Go code runs (`lastCheck`).  The boolean
reports whether the length coefficient must be incremented. -/
def incCarryAux (c : Coef) : List Coef → List Coef × Bool
  | [] => if c.Saturated then ([c.init], true) else ([c], false)
  | c2 :: rest =>
    if c.Saturated then
      let r := incCarryAux (c2.Increment) rest
      (c.init :: r.1, r.2)
    else
      let r := lastCheck (c2 :: rest)
      (c :: r.1, r.2)

/-- The carry loop applied to a whole coefficient list whose first element
has already been incremented. -/
def incCarry : List Coef → List Coef × Bool
  | [] => ([], false)
  | c :: rest => incCarryAux c rest

/-- Go `func (hs *HashSequential) Increment() (done bool)`.  The Go code
begins with `coefs[0].Increment()`, which panics (index out of range) when
the coefficient list is empty: modelled as `none`.  Returns the advanced
family and `done = hs.LenCoef.Value > hs.LenCoef.MaxValue`. -/
def HashSequential.Increment (hs : HashSequential) : Option (HashSequential × Bool) :=
  match hs.Coefs with
  | [] => none
  | c0 :: rest =>
    let r := incCarry (c0.Increment :: rest)
    let lc := if r.2 then hs.LenCoef.Increment else hs.LenCoef
    some ({ LenCoef := lc, Coefs := r.1 }, decide (lc.MaxValue < lc.Value))

/-- `HashFinder` owns the reusable scratch table (`hashmap []uint`). -/
structure HashFinder where
  hashmap : List Nat
deriving DecidableEq

/-- The three error values `HashFinder.Search` can return. -/
inductive SearchErr where
  /-- Go `errors.New("zero/negative bits for table size or too large")`. -/
  | badTableSizeBits
  /-- Go `errors.New("zero inputs")`. -/
  | zeroInputs
  /-- Go `ErrNoCoefficientsFound = errors.New("no coefficients found")`. -/
  | noCoefficientsFound
deriving DecidableEq

/-- Outcome of a (fuelled) run of `HashFinder.Search`: a Go return value
(finder state, family state, attempt count, error), a runtime panic, or
fuel exhaustion (the Go loop still running). -/
inductive SearchResult where
  | ok (phf : HashFinder) (hs : HashSequential) (attempts : Nat) (err : Option SearchErr)
  | fault
  | fuelOut
deriving DecidableEq

/-- The `for _, kw := range inputs` body of one attempt in
`HashFinder.Search`: hash, mask, test the scratch slot, short-circuit on the
first collision (`false`), otherwise mark the slot with 1 and continue
(`true` when every input placed).  In Go the table write `hashmap[h] = 1` is
always in bounds because `h = hash & mask < len(hashmap)`; `List.set` agrees
with it there. -/
def placeInputs (hs : HashSequential) (mask : Nat) :
    List Nat → List Str → Option (List Nat × Bool)
  | hm, [] => some (hm, true)
  | hm, kw :: rest =>
    match hs.Hash kw with
    | none => none
    | some hv =>
      let h := hv &&& mask
      if hm.getD h 0 ≠ 0 then some (hm, false)
      else placeInputs hs mask (hm.set h 1) rest

/-- The unbounded `for { ... }` loop of `HashFinder.Search`, with fuel.
Each iteration increments the attempt counter, clears the scratch table,
places the inputs, and on collision advances the family, stopping when the
family reports exhaustion. -/
def searchLoop (mask tblsz : Nat) (inputs : List Str) :
    Nat → HashSequential → Nat → List Nat → SearchResult
  | 0, _, _, _ => .fuelOut
  | fuel + 1, hs, currentAttempt, _hm =>
    let ca := currentAttempt + 1
    let cleared := List.replicate tblsz 0
    match placeInputs hs mask cleared inputs with
    | none => .fault
    | some (hm', attemptSuccess) =>
      if attemptSuccess then .ok ⟨hm'⟩ hs ca none
      else
        match hs.Increment with
        | none => .fault
        | some (hs', done) =>
          if done then .ok ⟨hm'⟩ hs' ca (some .noCoefficientsFound)
          else searchLoop mask tblsz inputs fuel hs' ca hm'

/-- Go `func (phf *HashFinder) Search(hasher Hash, tableSizeBits int,
inputs []string) (int, error)`, monomorphized to the `HashSequential`
hasher.  Precondition failures return immediately with attempt count 0 and
the finder and family untouched; otherwise the scratch table is grown to
`tblsz = 1 << tableSizeBits` and the attempt loop runs (with fuel). -/
def HashFinder.Search (phf : HashFinder) (hasher : HashSequential)
    (tableSizeBits : Int) (inputs : List Str) (fuel : Nat) : SearchResult :=
  if tableSizeBits ≤ 0 ∨ 32 < tableSizeBits then
    .ok phf hasher 0 (some .badTableSizeBits)
  else if inputs.length = 0 then
    .ok phf hasher 0 (some .zeroInputs)
  else
    let tblsz := 2 ^ tableSizeBits.toNat
    searchLoop (tblsz - 1) tblsz inputs fuel hasher 0 (List.replicate tblsz 0)

/-- Number of `Increment` calls needed, starting from `hs`, until the family
reports `done` (fuelled; `none` = panic or not yet exhausted within fuel).
When it is `some N`, `N` is the number of coefficient configurations the
odometer visits before the space is exhausted — the glossary's search-space
size as reachable from `hs`. -/
def stepsToDone : Nat → HashSequential → Option Nat
  | 0, _ => none
  | fuel + 1, hs =>
    match hs.Increment with
    | none => none
    | some (hs', done) => if done then some 1 else (stepsToDone fuel hs').map (· + 1)

/-- The family state after `n` advancement steps, provided no step panicked
and `done` was never reported on the way. -/
def iterateInc : Nat → HashSequential → Option HashSequential
  | 0, hs => some hs
  | n + 1, hs =>
    match hs.Increment with
    | none => none
    | some (hs', done) => if done then none else iterateInc n hs'

/-- The tuple of current coefficient values (all byte coefficients plus the
length coefficient) — the odometer's visible state. -/
def valueTuple (hs : HashSequential) : List Nat × Nat :=
  (hs.Coefs.map Coef.Value, hs.LenCoef.Value)

/-- The engine-visible table indices of the inputs under the family's current
coefficients: `Hash` masked with `mask` (`none` marks a Go panic). -/
def maskedHashes (hs : HashSequential) (mask : Nat) (inputs : List Str) :
    List (Option Nat) :=
  inputs.map fun kw => (hs.Hash kw).map (· &&& mask)

/-- The balls-into-bins falling-factorial product of spec §4.3:
the probability that `inputCount` uniform throws into `tableSize` bins are
collision free. -/
def fallingProduct (tableSize inputCount : Nat) : ℚ :=
  ∏ i ∈ Finset.range inputCount, (1 - (i : ℚ) / (tableSize : ℚ))

/-- Modelled from the spec: `HashFinder.SearchSuccessProbability` is called
by `example_test.go` but its body is not under `src/`.  Per spec §4.3 it
treats one trial as throwing `inputCount` balls into `2^tableSizeBits` bins
and returns the falling-factorial product `∏ (1 - i/tableSize)`; it fails
(probability 0 reported with an error) when the table-size bits are out of
the valid range or `inputCount` exceeds the table size, and it does not
consult `searchSpaceSize` in the formula.  Probabilities are exact rationals
here. -/
def HashFinder.SearchSuccessProbability (_phf : HashFinder) (tableSizeBits : Int)
    (inputCount : Nat) (_searchSpaceSize : Nat) : ℚ × Option String :=
  if tableSizeBits ≤ 0 ∨ 32 < tableSizeBits then
    (0, some "zero/negative bits for table size or too large")
  else
    let tableSize : Nat := 2 ^ tableSizeBits.toNat
    if tableSize < inputCount then
      (0, some "input count exceeds table size")
    else
      (fallingProduct tableSize inputCount, none)

/-! Proof-side definitions: the value a coefficient is re-initialized to, the
number of advancement steps a digit absorbs before carrying, the mixed-radix
rank of an odometer state, and the well-formedness predicates used by the
termination and no-revisit theorems. -/

/-- The value `Coef.init` sets: `StartValue`, or 1 when the start value is 0. -/
def initVal (c : Coef) : Nat := if c.StartValue = 0 then 1 else c.StartValue

/-- Least `n ≥ 1` with `v * 2^n ≥ M` (exact arithmetic): the number of
doublings a power-of-two coefficient needs to saturate. -/
def p2steps (v M : Nat) : Nat :=
  if h : v = 0 ∨ M ≤ 2 * v then 1
  else 1 + p2steps (2 * v) M
termination_by M - v
decreasing_by
  simp only [not_or, not_le] at h
  omega

/-- Least `n ≥ 1` such that `n` advancement steps (doubling when `p2`,
adding one otherwise) take `v` to at least `M`, in exact arithmetic. -/
def remStep (p2 : Bool) (v M : Nat) : Nat :=
  if p2 then p2steps v M else if M ≤ v then 1 else M - v

/-- Steps until a byte coefficient saturates (`Value >= MaxValue`). -/
def remB (c : Coef) : Nat := remStep c.OnlyPow2 c.Value c.MaxValue

/-- Steps until the length coefficient super-saturates (`Value > MaxValue`). -/
def remL (c : Coef) : Nat := remStep c.OnlyPow2 c.Value (c.MaxValue + 1)

/-- The spec's inclusive search range size of one coefficient:
`maxValue - startValue + 1`. -/
def rangeSize (c : Coef) : Nat := c.MaxValue - c.StartValue + 1

/-- Mixed-radix rank of the byte-coefficient digits, least significant
digit first: each digit contributes its remaining step count (minus one)
scaled by the ranges of the digits below it. -/
def brank : List Coef → Nat
  | [] => 0
  | c :: rest => (remB c - 1) + rangeSize c * brank rest

/-- Product of the byte coefficients' range sizes. -/
def prodRange : List Coef → Nat
  | [] => 1
  | c :: rest => rangeSize c * prodRange rest

/-- Mixed-radix rank of a whole family state; it strictly decreases at every
advancement step that does not report `done`. -/
def rank (hs : HashSequential) : Nat :=
  brank hs.Coefs + prodRange hs.Coefs * (remL hs.LenCoef - 1)

/-- The theoretical search-space bound of the spec:
`lengthRange * coef1Range * coef2Range * ...`. -/
def spaceBound (hs : HashSequential) : Nat :=
  prodRange hs.Coefs * rangeSize hs.LenCoef

/-- The advancement-invariant fields of a coefficient (everything except the
mutable `Value` and `Op`). -/
def shapeOf (c : Coef) : Int × Nat × Nat × Bool :=
  (c.IndexApplied, c.StartValue, c.MaxValue, c.OnlyPow2)

/-- A well-formed coefficient state: positive range, no possibility of 64-bit
wraparound during advancement (`MaxValue ≤ 2^62`), a start value inside the
range, and a current value between the re-initialization value and the
maximum. -/
def coefOK (c : Coef) : Prop :=
  1 ≤ c.MaxValue ∧ c.MaxValue ≤ 2 ^ 62 ∧ initVal c ≤ c.MaxValue ∧
    initVal c ≤ c.Value ∧ c.Value ≤ c.MaxValue

instance : DecidablePred coefOK := fun c => by unfold coefOK; infer_instance

/-- A tame family: non-empty coefficient list and every coefficient
(including the length coefficient) well formed. -/
def Tame (hs : HashSequential) : Prop :=
  hs.Coefs ≠ [] ∧ (∀ c ∈ hs.Coefs, coefOK c) ∧ coefOK hs.LenCoef

instance : ∀ hs, Decidable (Tame hs) := fun hs => by unfold Tame; infer_instance

/-- The coefficient's operation is one of the three supported ones. -/
def validOp (c : Coef) : Prop := c.Op = OpAdd ∨ c.Op = OpXor ∨ c.Op = OpMul

instance : DecidablePred validOp := fun c => by unfold validOp; infer_instance

/-- Every byte coefficient of the family has a supported operation, so
evaluation never reaches the Go `panic("unsupported operation")`. -/
def ValidOps (hs : HashSequential) : Prop := ∀ c ∈ hs.Coefs, validOp c

instance : ∀ hs, Decidable (ValidOps hs) := fun hs => by unfold ValidOps; infer_instance

/-- The coefficient's byte index is not `math.MinInt64`: at that one index
Go's wrapping negation passes the negative-index guard of `Coef.Apply` and
the string access faults. -/
def validIdx (c : Coef) : Prop := c.IndexApplied ≠ -(2 ^ 63)

instance : DecidablePred validIdx := fun c => by unfold validIdx; infer_instance

/-- No byte coefficient of the family carries the faulting index
`math.MinInt64`. -/
def ValidIdxs (hs : HashSequential) : Prop := ∀ c ∈ hs.Coefs, validIdx c

instance : ∀ hs, Decidable (ValidIdxs hs) := fun hs => by unfold ValidIdxs; infer_instance

/-! Concrete states used by counterexamples: a configured power-of-two
coefficient whose start value `2^63` makes `Value *= 2` wrap to 0, after
which the odometer can never saturate it again, and a family with an empty
byte-coefficient list. -/

/-- Pre-configuration family whose byte coefficient starts at `2^63` with
`OnlyPow2` and `MaxValue = 10`. -/
def cexPre : HashSequential :=
  ⟨⟨0, 0, 4, 1, false, 0⟩, [⟨0, 0, 10, 2 ^ 63, true, 0⟩]⟩

/-- `cexPre` after `ConfigCoefs 16`: byte value `2^63`, length value 1. -/
def cexStart : HashSequential :=
  ⟨⟨0, 1, 4, 1, false, OpAdd⟩, [⟨0, 2 ^ 63, 10, 2 ^ 63, true, OpAdd⟩]⟩

/-- The absorbing state reached after one advancement of `cexStart`: the byte
value wrapped to 0, where doubling keeps it at 0 forever. -/
def cexLoop : HashSequential :=
  ⟨⟨0, 1, 4, 1, false, OpAdd⟩, [⟨0, 0, 10, 2 ^ 63, true, OpAdd⟩]⟩

/-- Two identical one-byte inputs: every attempt collides. -/
def dupInputs : List Str := [[97], [97]]

/-- Pre-configuration family with an empty byte-coefficient list. -/
def emptyCoefsPre : HashSequential := ⟨⟨0, 0, 4, 1, false, 0⟩, []⟩

/-- `emptyCoefsPre` after `ConfigCoefs 16`: still no byte coefficients. -/
def emptyCoefs : HashSequential := ⟨⟨0, 1, 4, 1, false, OpAdd⟩, []⟩

/-! Basic facts about evaluation. -/

lemma combineOp_isSome (op : Int) (h a : Nat)
    (hop : op = OpAdd ∨ op = OpXor ∨ op = OpMul) : (combineOp op h a).isSome := by
  rcases hop with h1 | h1 | h1 <;>
    simp [combineOp, h1, OpAdd, OpXor, OpMul]

lemma negInt64_eq (x : Int) (h : x ≠ -(2 ^ 63)) : negInt64 x = -x := if_neg h

lemma contribution_isSome (c : Coef) (s : Str) (hidx : validIdx c) :
    ∃ a, c.contribution s = some a := by
  have hneg : negInt64 c.IndexApplied = -c.IndexApplied := negInt64_eq _ hidx
  rw [Coef.contribution]
  by_cases h1 : c.IndexApplied < 0 ∧ negInt64 c.IndexApplied ≤ (s.length : Int)
  · rw [if_pos h1, if_pos (by rw [hneg] at h1; omega)]
    exact ⟨_, rfl⟩
  · rw [if_neg h1]
    by_cases h2 : 0 ≤ c.IndexApplied ∧ c.IndexApplied < (s.length : Int)
    · rw [if_pos h2]; exact ⟨_, rfl⟩
    · rw [if_neg h2]; exact ⟨_, rfl⟩

lemma apply_isSome (c : Coef) (h : Nat) (s : Str) (hop : validOp c)
    (hidx : validIdx c) : (c.Apply h s).isSome := by
  obtain ⟨a, ha⟩ := contribution_isSome c s hidx
  rw [Coef.Apply, ha]
  exact combineOp_isSome c.Op h a hop

lemma applyCoefs_isSome (s : Str) :
    ∀ (l : List Coef) (h : Nat), (∀ c ∈ l, validOp c) → (∀ c ∈ l, validIdx c) →
      (applyCoefs l h s).isSome := by
  intro l
  induction l with
  | nil => intro h _ _; simp [applyCoefs]
  | cons c rest ih =>
    intro h hops hidxs
    have hc : (c.Apply h s).isSome :=
      apply_isSome c h s (hops c (by simp)) (hidxs c (by simp))
    rw [applyCoefs]
    cases happ : c.Apply h s with
    | none => rw [happ] at hc; simp at hc
    | some h' =>
      exact ih h' (fun d hd => hops d (by simp [hd])) (fun d hd => hidxs d (by simp [hd]))

lemma hash_isSome (hs : HashSequential) (s : Str) (hops : ValidOps hs)
    (hidxs : ValidIdxs hs) : (hs.Hash s).isSome :=
  applyCoefs_isSome s hs.Coefs _ hops hidxs

/-! One attempt of the search loop: if every input placed without collision,
the engine-visible indices of the inputs are pairwise distinct. -/

lemma maskedHashes_nil (hs : HashSequential) (mask : Nat) :
    maskedHashes hs mask [] = [] := rfl

lemma maskedHashes_cons (hs : HashSequential) (mask : Nat) (kw : Str) (rest : List Str) :
    maskedHashes hs mask (kw :: rest) =
      ((hs.Hash kw).map (· &&& mask)) :: maskedHashes hs mask rest := rfl

lemma placeInputs_success (hs : HashSequential) (mask : Nat) (inputs : List Str) :
    ∀ hm hm' : List Nat, mask < hm.length →
      placeInputs hs mask hm inputs = some (hm', true) →
      (∀ o ∈ maskedHashes hs mask inputs, o.isSome) ∧
        (maskedHashes hs mask inputs).Nodup ∧
        (∀ v : Nat, some v ∈ maskedHashes hs mask inputs → hm.getD v 0 = 0) := by
  induction inputs with
  | nil => intro hm hm' _ _; simp [maskedHashes]
  | cons kw rest ih =>
    intro hm hm' hlen hrun
    rw [placeInputs] at hrun
    cases hh : hs.Hash kw with
    | none => rw [hh] at hrun; simp at hrun
    | some hv =>
      rw [hh] at hrun
      simp only at hrun
      by_cases hslot : hm.getD (hv &&& mask) 0 ≠ 0
      · rw [if_pos hslot] at hrun
        simp at hrun
      · rw [if_neg hslot] at hrun
        push_neg at hslot
        have hlen' : mask < (hm.set (hv &&& mask) 1).length := by
          rw [List.length_set]; exact hlen
        obtain ⟨ihSome, ihNodup, ihZero⟩ := ih (hm.set (hv &&& mask) 1) hm' hlen' hrun
        have hhlt : hv &&& mask < hm.length := lt_of_le_of_lt Nat.and_le_right hlen
        have hne : ∀ v : Nat, some v ∈ maskedHashes hs mask rest → v ≠ hv &&& mask := by
          intro v hvmem heq
          have hz := ihZero v hvmem
          rw [heq, List.getD_eq_getElem?_getD, List.getElem?_set_self hhlt] at hz
          simp at hz
        refine ⟨?_, ?_, ?_⟩
        · intro o ho
          rw [maskedHashes_cons, hh] at ho
          rcases List.mem_cons.1 ho with h1 | h1
          · simp [h1]
          · exact ihSome o h1
        · rw [maskedHashes_cons, hh]
          refine List.nodup_cons.2 ⟨fun hmem => hne _ hmem rfl, ihNodup⟩
        · intro v hvmem
          rw [maskedHashes_cons, hh] at hvmem
          rcases List.mem_cons.1 hvmem with h1 | h1
          · simp only [Option.map_some', Option.some.injEq] at h1
            rw [← h1] at hslot
            exact hslot
          · have hz := ihZero v h1
            rw [List.getD_eq_getElem?_getD, List.getElem?_set_ne (hne v h1).symm] at hz
            rw [List.getD_eq_getElem?_getD]
            exact hz

lemma searchLoop_ok_none (mask tblsz : Nat) (inputs : List Str) (hmt : mask < tblsz) :
    ∀ (fuel : Nat) (hs : HashSequential) (ca : Nat) (hm : List Nat)
      (phf' : HashFinder) (hs' : HashSequential) (n : Nat),
      searchLoop mask tblsz inputs fuel hs ca hm = .ok phf' hs' n none →
      ca < n ∧ (∀ o ∈ maskedHashes hs' mask inputs, o.isSome) ∧
        (maskedHashes hs' mask inputs).Nodup := by
  intro fuel
  induction fuel with
  | zero => intro hs ca hm phf' hs' n hrun; rw [searchLoop] at hrun; simp at hrun
  | succ fuel ih =>
    intro hs ca hm phf' hs' n hrun
    rw [searchLoop] at hrun
    cases hpl : placeInputs hs mask (List.replicate tblsz 0) inputs with
    | none => rw [hpl] at hrun; simp at hrun
    | some r =>
      rw [hpl] at hrun
      obtain ⟨hm', success⟩ := r
      simp only at hrun
      by_cases hsucc : success = true
      · subst hsucc
        rw [if_pos rfl] at hrun
        cases hrun
        have hlen : mask < (List.replicate tblsz (0 : Nat)).length := by
          rw [List.length_replicate]; exact hmt
        obtain ⟨hSome, hNodup, _⟩ := placeInputs_success hs mask inputs _ hm' hlen hpl
        exact ⟨Nat.lt_succ_self ca, hSome, hNodup⟩
      · rw [if_neg hsucc] at hrun
        cases hinc : hs.Increment with
        | none => rw [hinc] at hrun; simp at hrun
        | some p =>
          rw [hinc] at hrun
          obtain ⟨hs2, done⟩ := p
          simp only at hrun
          by_cases hdone : done = true
          · subst hdone
            rw [if_pos rfl] at hrun
            simp at hrun
          · rw [if_neg hdone] at hrun
            have := ih hs2 (ca + 1) hm' phf' hs' n hrun
            exact ⟨Nat.lt_of_succ_lt this.1, this.2⟩

/-- Claim C1: when `Search` returns a nil error, the returned family's
coefficient values are a perfect hash of the inputs — every input hashes
(`Hash` masked with `2^tableSizeBits - 1`) to a defined index and the indices
are pairwise distinct — at least one attempt ran, and the family state at
return is exactly the configuration that was tested (the success branch
returns without advancing the family, which is what makes this property hold
of the *returned* state). -/
theorem search_success_is_perfect_hash (phf : HashFinder) (hs : HashSequential)
    (tableSizeBits : Int) (inputs : List Str) (fuel : Nat)
    (phf' : HashFinder) (hs' : HashSequential) (n : Nat)
    (hrun : HashFinder.Search phf hs tableSizeBits inputs fuel = .ok phf' hs' n none) :
    1 ≤ n ∧
      (∀ o ∈ maskedHashes hs' (2 ^ tableSizeBits.toNat - 1) inputs, o.isSome) ∧
      (maskedHashes hs' (2 ^ tableSizeBits.toNat - 1) inputs).Nodup := by
  rw [HashFinder.Search] at hrun
  by_cases hb : tableSizeBits ≤ 0 ∨ 32 < tableSizeBits
  · rw [if_pos hb] at hrun; simp at hrun
  · rw [if_neg hb] at hrun
    by_cases hz : inputs.length = 0
    · rw [if_pos hz] at hrun; simp at hrun
    · rw [if_neg hz] at hrun
      have hmt : 2 ^ tableSizeBits.toNat - 1 < 2 ^ tableSizeBits.toNat :=
        Nat.sub_lt (Nat.two_pow_pos _) Nat.one_pos
      have h := searchLoop_ok_none _ _ inputs hmt fuel hs 0 _ phf' hs' n hrun
      exact ⟨h.1, h.2⟩

/-- Claim C6: both `Search` preconditions — table-size bits outside `(0, 32]`
and an empty input list — are reported immediately with attempt count 0 and
distinct errors, returning the finder (scratch table) and the family
unchanged. -/
theorem search_precondition_failures (phf : HashFinder) (hs : HashSequential)
    (tableSizeBits : Int) (inputs : List Str) (fuel : Nat) :
    (tableSizeBits ≤ 0 ∨ 32 < tableSizeBits →
      HashFinder.Search phf hs tableSizeBits inputs fuel =
        .ok phf hs 0 (some .badTableSizeBits)) ∧
    (0 < tableSizeBits → tableSizeBits ≤ 32 → inputs = [] →
      HashFinder.Search phf hs tableSizeBits inputs fuel =
        .ok phf hs 0 (some .zeroInputs)) ∧
    SearchErr.badTableSizeBits ≠ SearchErr.zeroInputs := by
  refine ⟨?_, ?_, by decide⟩
  · intro hb
    rw [HashFinder.Search, if_pos hb]
  · intro h1 h2 hin
    have hb : ¬(tableSizeBits ≤ 0 ∨ 32 < tableSizeBits) := by omega
    rw [HashFinder.Search, if_neg hb, hin]
    simp

/-- Claim C7: for every family, input string and `tableSizeBits` in `(0,32]`,
the index the engine derives from `Hash` — the raw hash value masked with
`2^tableSizeBits - 1`, exactly the expression `searchLoop` indexes the
scratch table with — is below the table size `2^tableSizeBits`, so every
scratch-table access in `Search` is in bounds. -/
theorem search_index_in_bounds (hs : HashSequential) (s : Str)
    (tableSizeBits : Int) (hv : Nat)
    (hb0 : 0 < tableSizeBits) (hb32 : tableSizeBits ≤ 32)
    (hh : hs.Hash s = some hv) :
    hv &&& (2 ^ tableSizeBits.toNat - 1) < 2 ^ tableSizeBits.toNat := by
  have h1 : hv &&& (2 ^ tableSizeBits.toNat - 1) ≤ 2 ^ tableSizeBits.toNat - 1 :=
    Nat.and_le_right
  have h2 : 0 < 2 ^ tableSizeBits.toNat := Nat.two_pow_pos _
  omega

/-- Claim C8 (amended): with a supported operation and a byte index other
than `math.MinInt64`, `Coef.Apply` never faults; an index that is out of
range for the string (non-negative with `index ≥ len`, or negative with
`-index > len`) contributes 0 — the result is `h` combined with 0 under the
coefficient's operation — while an in-range index contributes the addressed
byte times the coefficient value (64-bit product).  At index
`math.MinInt64` Go's wrapping negation passes the guard and the access
faults (see the counterexample). -/
theorem apply_out_of_range_contributes_zero (c : Coef) (h : Nat) (s : Str)
    (hop : validOp c) (hidx : validIdx c) :
    (c.Apply h s).isSome ∧
    ((0 ≤ c.IndexApplied ∧ (s.length : Int) ≤ c.IndexApplied) ∨
        (c.IndexApplied < 0 ∧ (s.length : Int) < -c.IndexApplied) →
      c.Apply h s = combineOp c.Op h 0) ∧
    (∀ i : Nat, c.IndexApplied = (i : Int) → i < s.length →
      c.Apply h s = combineOp c.Op h (s.getD i 0 * c.Value % W)) ∧
    (∀ i : Nat, c.IndexApplied = -(i : Int) → 0 < i → i ≤ s.length →
      c.Apply h s = combineOp c.Op h (s.getD (s.length - i) 0 * c.Value % W)) := by
  have hneg : negInt64 c.IndexApplied = -c.IndexApplied := negInt64_eq _ hidx
  refine ⟨apply_isSome c h s hop hidx, ?_, ?_, ?_⟩
  · intro hout
    have hcon : c.contribution s = some 0 := by
      rw [Coef.contribution]
      rcases hout with ⟨h1, h2⟩ | ⟨h1, h2⟩
      · rw [if_neg (by omega), if_neg (by omega)]
      · rw [if_neg (by rw [hneg]; omega), if_neg (by omega)]
    rw [Coef.Apply, hcon]
  · intro i hi hlt
    have hcon : c.contribution s = some (s.getD i 0 * c.Value % W) := by
      rw [Coef.contribution, hi]
      rw [if_neg (fun hc => absurd hc.1 (by omega)), if_pos (by omega)]
      have ht : ((i : Int)).toNat = i := rfl
      rw [ht]
    rw [Coef.Apply, hcon]
  · intro i hi hpos hle
    have hcon : c.contribution s = some (s.getD (s.length - i) 0 * c.Value % W) := by
      rw [Coef.contribution, hi]
      have hneg' : negInt64 (-(i : Int)) = (i : Int) :=
        (if_neg (by rw [← hi]; exact hidx)).trans (neg_neg _)
      rw [if_pos ⟨by omega, by rw [hneg']; omega⟩, if_pos (by omega)]
      have ht : ((s.length : Int) + -(i : Int)).toNat = s.length - i := by omega
      rw [ht]
    rw [Coef.Apply, hcon]

/-- Counterexample to claim C8 as stated: at `IndexApplied = -2^63` — a
negative index with `-index > len(s)` in the claim's exact arithmetic, with
a supported operation — Go's `int` negation wraps, the negative-index guard
passes, and `kw[len(kw)+idx]` faults instead of contributing zero. -/
theorem apply_min_index_faults :
    validOp (⟨-(2 ^ 63), 3, 10, 1, false, OpAdd⟩ : Coef) ∧
    (([97] : Str).length : Int) < -(-(2 ^ 63) : Int) ∧
    Coef.Apply ⟨-(2 ^ 63), 3, 10, 1, false, OpAdd⟩ 7 [97] = none :=
  ⟨by decide, by decide, by decide⟩

/-- Claim C10 (amended): `HashSequential.Hash` is total on every string —
including the empty string and strings shorter than any configured byte
index — whenever every coefficient's operation is one of `OpAdd`, `OpXor`,
`OpMul` and no coefficient's byte index is `math.MinInt64`: every byte
access in `Coef.Apply` is then guarded by the index checks, so evaluation
never faults.  At index `math.MinInt64` the wrapped negation defeats the
guard (see the counterexample). -/
theorem hash_total_on_all_strings (hs : HashSequential) (s : Str)
    (hops : ValidOps hs) (hidxs : ValidIdxs hs) : (hs.Hash s).isSome :=
  hash_isSome hs s hops hidxs

/-- Counterexample to claim C10 as stated: a family whose only byte
coefficient has a supported operation but index `-2^63`; `Hash` faults on
every string — here a one-byte string — because Go's wrapping negation
passes the negative-index guard and the byte access is out of bounds. -/
theorem hash_min_index_counterexample :
    ValidOps ⟨⟨0, 1, 4, 1, false, OpAdd⟩, [⟨-(2 ^ 63), 1, 4, 1, false, OpAdd⟩]⟩ ∧
    HashSequential.Hash
      ⟨⟨0, 1, 4, 1, false, OpAdd⟩, [⟨-(2 ^ 63), 1, 4, 1, false, OpAdd⟩]⟩ [97] = none :=
  ⟨by decide, by decide⟩

/-! Coefficient-level facts about advancement: shapes are preserved, a
well-formed coefficient advances exactly (no 64-bit wrap), and the remaining
step counts obey the expected recurrences and bounds. -/

lemma initVal_pos (c : Coef) : 1 ≤ initVal c := by
  unfold initVal; split <;> omega

lemma init_Value (c : Coef) : (c.init).Value = initVal c := by
  unfold Coef.init initVal
  by_cases h1 : c.StartValue = 0 <;> by_cases h2 : c.Op = 0 <;> simp [h1, h2]

lemma init_shape (c : Coef) : shapeOf (c.init) = shapeOf c := by
  unfold Coef.init shapeOf
  by_cases h1 : c.StartValue = 0 <;> by_cases h2 : c.Op = 0 <;> simp [h1, h2]

lemma increment_shape (c : Coef) : shapeOf (c.Increment) = shapeOf c := by
  unfold Coef.Increment shapeOf
  split <;> rfl

lemma shape_fields {c d : Coef} (h : shapeOf c = shapeOf d) :
    c.IndexApplied = d.IndexApplied ∧ c.StartValue = d.StartValue ∧
      c.MaxValue = d.MaxValue ∧ c.OnlyPow2 = d.OnlyPow2 := by
  unfold shapeOf at h
  exact ⟨congrArg Prod.fst h, congrArg (Prod.fst ∘ Prod.snd) h,
    congrArg (Prod.fst ∘ Prod.snd ∘ Prod.snd) h,
    congrArg (Prod.snd ∘ Prod.snd ∘ Prod.snd) h⟩

lemma initVal_eq_of_shape {c d : Coef} (h : shapeOf c = shapeOf d) :
    initVal c = initVal d := by
  unfold initVal
  rw [(shape_fields h).2.1]

lemma rangeSize_eq_of_shape {c d : Coef} (h : shapeOf c = shapeOf d) :
    rangeSize c = rangeSize d := by
  unfold rangeSize
  rw [(shape_fields h).2.1, (shape_fields h).2.2.1]

lemma rangeSize_pos (c : Coef) : 1 ≤ rangeSize c := by
  unfold rangeSize; omega

lemma saturated_iff (c : Coef) : c.Saturated = true ↔ c.MaxValue ≤ c.Value := by
  simp [Coef.Saturated]

lemma increment_Value_exact (c : Coef) (hv : c.Value ≤ 2 ^ 62) :
    (c.Increment).Value = if c.OnlyPow2 then c.Value * 2 else c.Value + 1 := by
  unfold Coef.Increment
  split <;> simp <;> exact Nat.mod_eq_of_lt (by unfold W; omega)

lemma p2steps_pos (v M : Nat) : 1 ≤ p2steps v M := by
  rw [p2steps]
  split <;> omega

lemma remStep_pos (p2 : Bool) (v M : Nat) : 1 ≤ remStep p2 v M := by
  unfold remStep
  split
  · exact p2steps_pos v M
  · split <;> omega

lemma p2steps_le_aux : ∀ (k v M : Nat), M - v ≤ k → 1 ≤ v →
    p2steps v M ≤ M - v + 1 := by
  intro k
  induction k with
  | zero =>
    intro v M hk hv
    rw [p2steps, dif_pos (by omega)]
    omega
  | succ k ih =>
    intro v M hk hv
    by_cases h2 : M ≤ 2 * v
    · rw [p2steps, dif_pos (by omega)]
      omega
    · rw [p2steps, dif_neg (by omega)]
      have := ih (2 * v) M (by omega) (by omega)
      omega

lemma p2steps_le (v M : Nat) (hv : 1 ≤ v) : p2steps v M ≤ M - v + 1 :=
  p2steps_le_aux (M - v) v M le_rfl hv

lemma p2steps_le_strict_aux : ∀ (k v M : Nat), M - v ≤ k → 1 ≤ v → v ≤ M →
    p2steps v (M + 1) ≤ M + 1 - v := by
  intro k
  induction k with
  | zero =>
    intro v M hk hv hvM
    rw [p2steps, dif_pos (by omega)]
    omega
  | succ k ih =>
    intro v M hk hv hvM
    by_cases h2 : M + 1 ≤ 2 * v
    · rw [p2steps, dif_pos (by omega)]
      omega
    · rw [p2steps, dif_neg (by omega)]
      have := ih (2 * v) M (by omega) (by omega) (by omega)
      omega

lemma p2steps_le_strict (v M : Nat) (hv : 1 ≤ v) (hvM : v ≤ M) :
    p2steps v (M + 1) ≤ M + 1 - v :=
  p2steps_le_strict_aux (M - v) v M le_rfl hv hvM

lemma remStep_le (p2 : Bool) (v M : Nat) (hv : 1 ≤ v) :
    remStep p2 v M ≤ M - v + 1 := by
  unfold remStep
  split
  · exact p2steps_le v M hv
  · split <;> omega

lemma remStep_strict_le (p2 : Bool) (v M : Nat) (hv : 1 ≤ v) (hvM : v ≤ M) :
    remStep p2 v (M + 1) ≤ M + 1 - v := by
  unfold remStep
  split
  · exact p2steps_le_strict v M hv hvM
  · split <;> omega

lemma remStep_rec (p2 : Bool) (v M : Nat) (hv : 1 ≤ v) :
    remStep p2 v M =
      if M ≤ (if p2 then v * 2 else v + 1) then 1
      else 1 + remStep p2 (if p2 then v * 2 else v + 1) M := by
  cases p2 with
  | true =>
    show p2steps v M = if M ≤ v * 2 then 1 else 1 + p2steps (v * 2) M
    rw [p2steps]
    by_cases h2 : M ≤ v * 2
    · rw [dif_pos (Or.inr (by omega)), if_pos h2]
    · rw [dif_neg (by omega), if_neg h2, show 2 * v = v * 2 from by omega]
  | false =>
    show (if M ≤ v then 1 else M - v) =
      if M ≤ v + 1 then 1 else 1 + (if M ≤ v + 1 then 1 else M - (v + 1))
    split_ifs <;> omega

lemma remB_pos (c : Coef) : 1 ≤ remB c := remStep_pos _ _ _

lemma remL_pos (c : Coef) : 1 ≤ remL c := remStep_pos _ _ _

/-- A well-formed coefficient that is incremented and does not saturate:
it stays well formed and its remaining step count goes down by exactly 1. -/
lemma remB_dec (c : Coef) (hOK : coefOK c) (hns : (c.Increment).Saturated = false) :
    coefOK c.Increment ∧ remB c.Increment = remB c - 1 ∧ 2 ≤ remB c := by
  obtain ⟨hM1, hM2, hIM, hIV, hVM⟩ := hOK
  obtain ⟨hsIdx, hsStart, hsMax, hsP2⟩ := shape_fields (increment_shape c)
  have hval : (c.Increment).Value = if c.OnlyPow2 then c.Value * 2 else c.Value + 1 :=
    increment_Value_exact c (by omega)
  have hsat : ¬ (c.Increment).MaxValue ≤ (c.Increment).Value := by
    intro hle
    have := (saturated_iff (c.Increment)).2 hle
    rw [hns] at this
    cases this
  have hnext : (c.Increment).Value < c.MaxValue := by rw [hsMax] at hsat; omega
  have hv1 : 1 ≤ c.Value := le_trans (initVal_pos c) hIV
  have hgt : c.Value < (c.Increment).Value := by rw [hval]; split <;> omega
  have hIV' : initVal (c.Increment) = initVal c := initVal_eq_of_shape (increment_shape c)
  have hOK' : coefOK c.Increment := by
    unfold coefOK
    rw [hsMax, hIV']
    exact ⟨hM1, hM2, hIM, by omega, by omega⟩
  have hrec := remStep_rec c.OnlyPow2 c.Value c.MaxValue hv1
  rw [if_neg (by rw [← hval]; omega)] at hrec
  have hid : remStep c.OnlyPow2 (if c.OnlyPow2 then c.Value * 2 else c.Value + 1)
      c.MaxValue = remB c.Increment := by
    unfold remB
    rw [hsP2, hsMax, hval]
  have hfin : remB c = 1 + remB c.Increment := by
    rw [← hid]
    exact hrec
  have := remB_pos c.Increment
  exact ⟨hOK', by omega, by omega⟩

/-- The length coefficient incremented without reporting `done`: well formed,
and its remaining step count goes down by exactly 1. -/
lemma remL_dec (c : Coef) (hOK : coefOK c) (hnd : (c.Increment).Value ≤ c.MaxValue) :
    coefOK c.Increment ∧ remL c.Increment = remL c - 1 ∧ 2 ≤ remL c := by
  obtain ⟨hM1, hM2, hIM, hIV, hVM⟩ := hOK
  obtain ⟨hsIdx, hsStart, hsMax, hsP2⟩ := shape_fields (increment_shape c)
  have hval : (c.Increment).Value = if c.OnlyPow2 then c.Value * 2 else c.Value + 1 :=
    increment_Value_exact c (by omega)
  have hv1 : 1 ≤ c.Value := le_trans (initVal_pos c) hIV
  have hgt : c.Value < (c.Increment).Value := by rw [hval]; split <;> omega
  have hIV' : initVal (c.Increment) = initVal c := initVal_eq_of_shape (increment_shape c)
  have hOK' : coefOK c.Increment := by
    unfold coefOK
    rw [hsMax, hIV']
    exact ⟨hM1, hM2, hIM, by omega, by omega⟩
  have hrec := remStep_rec c.OnlyPow2 c.Value (c.MaxValue + 1) hv1
  rw [if_neg (by rw [← hval]; omega)] at hrec
  have hid : remStep c.OnlyPow2 (if c.OnlyPow2 then c.Value * 2 else c.Value + 1)
      (c.MaxValue + 1) = remL c.Increment := by
    unfold remL
    rw [hsP2, hsMax, hval]
  have hfin : remL c = 1 + remL c.Increment := by
    rw [← hid]
    exact hrec
  have := remL_pos c.Increment
  exact ⟨hOK', by omega, by omega⟩

lemma remB_le_range (c : Coef) (hOK : coefOK c) : remB c ≤ rangeSize c := by
  obtain ⟨hM1, hM2, hIM, hIV, hVM⟩ := hOK
  have hv1 : 1 ≤ c.Value := le_trans (initVal_pos c) hIV
  have h := remStep_le c.OnlyPow2 c.Value c.MaxValue hv1
  unfold remB rangeSize
  unfold initVal at hIV
  by_cases hS : c.StartValue = 0
  · rw [if_pos hS] at hIV; omega
  · rw [if_neg hS] at hIV; omega

lemma remL_le_range (c : Coef) (hOK : coefOK c) : remL c ≤ rangeSize c := by
  obtain ⟨hM1, hM2, hIM, hIV, hVM⟩ := hOK
  have hv1 : 1 ≤ c.Value := le_trans (initVal_pos c) hIV
  have h := remStep_strict_le c.OnlyPow2 c.Value c.MaxValue hv1 hVM
  unfold remL rangeSize
  unfold initVal at hIV
  by_cases hS : c.StartValue = 0
  · rw [if_pos hS] at hIV; omega
  · rw [if_neg hS] at hIV; omega

/-- Re-initializing any coefficient with the shape of a well-formed one
yields a well-formed coefficient whose remaining steps fit in the range. -/
lemma coefOK_init_of_shape (c d : Coef) (hsh : shapeOf d = shapeOf c) (hOK : coefOK c) :
    coefOK (d.init) ∧ remB (d.init) ≤ rangeSize c ∧ shapeOf (d.init) = shapeOf c := by
  obtain ⟨hM1, hM2, hIM, hIV, hVM⟩ := hOK
  obtain ⟨h1, h2, h3, h4⟩ := shape_fields hsh
  obtain ⟨g1, g2, g3, g4⟩ := shape_fields (init_shape d)
  have hv : (d.init).Value = initVal d := init_Value d
  have hivd : initVal d = initVal c := initVal_eq_of_shape hsh
  have hOK' : coefOK d.init := by
    unfold coefOK
    rw [initVal_eq_of_shape (init_shape d), hivd, g3, h3, hv, hivd]
    exact ⟨hM1, hM2, hIM, le_rfl, hIM⟩
  refine ⟨hOK', ?_, (init_shape d).trans hsh⟩
  have hrr : remB (d.init) = remStep c.OnlyPow2 (initVal c) c.MaxValue := by
    unfold remB
    rw [g4, h4, g3, h3, hv, hivd]
  rw [hrr]
  have h := remStep_le c.OnlyPow2 (initVal c) c.MaxValue (initVal_pos c)
  have hx : c.MaxValue - initVal c + 1 ≤ c.MaxValue - c.StartValue + 1 := by
    unfold initVal; split <;> omega
  unfold rangeSize
  omega

/-! The carry step of the odometer, over whole coefficient lists. -/

lemma brank_nil : brank [] = 0 := rfl

lemma brank_cons (c : Coef) (l : List Coef) :
    brank (c :: l) = (remB c - 1) + rangeSize c * brank l := rfl

lemma lastCheck_spec : ∀ l : List Coef, (∀ c ∈ l, coefOK c) →
    (∀ c ∈ (lastCheck l).1, coefOK c) ∧
    (lastCheck l).1.map shapeOf = l.map shapeOf ∧
    ((lastCheck l).2 = false → (lastCheck l).1 = l) := by
  intro l
  induction l with
  | nil => intro _; exact ⟨by simp [lastCheck], by simp [lastCheck], fun _ => rfl⟩
  | cons c rest ih =>
    intro hOK
    cases rest with
    | nil =>
      by_cases hs : c.Saturated = true
      · have hval : lastCheck [c] = ([c.init], true) := by simp [lastCheck, hs]
        rw [hval]
        have hc := coefOK_init_of_shape c c rfl (hOK c (by simp))
        refine ⟨?_, ?_, ?_⟩
        · intro d hd
          rw [List.mem_singleton] at hd
          rw [hd]; exact hc.1
        · simp only [List.map_cons, List.map_nil, List.cons.injEq]
          exact ⟨hc.2.2, by trivial⟩
        · intro h; cases h
      · have hval : lastCheck [c] = ([c], false) := by simp [lastCheck, hs]
        rw [hval]
        exact ⟨hOK, rfl, fun _ => rfl⟩
    | cons c2 rest2 =>
      have hval : lastCheck (c :: c2 :: rest2) =
          (c :: (lastCheck (c2 :: rest2)).1, (lastCheck (c2 :: rest2)).2) := by
        simp [lastCheck]
      rw [hval]
      obtain ⟨ihOK, ihShape, ihId⟩ := ih (fun d hd => hOK d (by simp [hd]))
      refine ⟨?_, ?_, ?_⟩
      · intro d hd
        rcases List.mem_cons.1 hd with h1 | h1
        · rw [h1]; exact hOK c (by simp)
        · exact ihOK d h1
      · simp only [List.map_cons, List.cons.injEq]
        exact ⟨by trivial, ihShape⟩
      · intro hb
        rw [ihId hb]

lemma incCarry_spec : ∀ (rest : List Coef) (c : Coef), coefOK c →
    (∀ d ∈ rest, coefOK d) →
    (∀ d ∈ (incCarry (c.Increment :: rest)).1, coefOK d) ∧
    (incCarry (c.Increment :: rest)).1.map shapeOf = (c :: rest).map shapeOf ∧
    ((incCarry (c.Increment :: rest)).2 = false →
      brank (incCarry (c.Increment :: rest)).1 < brank (c :: rest)) := by
  intro rest
  induction rest with
  | nil =>
    intro c hc _
    by_cases hs : (c.Increment).Saturated = true
    · have hval : incCarry [c.Increment] = ([(c.Increment).init], true) := by
        simp [incCarry, incCarryAux, hs]
      rw [hval]
      have hini := coefOK_init_of_shape c (c.Increment) (increment_shape c) hc
      refine ⟨?_, ?_, ?_⟩
      · intro d hd
        rw [List.mem_singleton] at hd
        rw [hd]; exact hini.1
      · simp only [List.map_cons, List.map_nil, List.cons.injEq]
        exact ⟨hini.2.2, by trivial⟩
      · intro h; cases h
    · have hns : (c.Increment).Saturated = false := by
        revert hs; cases (c.Increment).Saturated <;> simp
      have hval : incCarry [c.Increment] = ([c.Increment], false) := by
        simp [incCarry, incCarryAux, hns]
      rw [hval]
      obtain ⟨hOK', hdec, h2⟩ := remB_dec c hc hns
      refine ⟨?_, ?_, ?_⟩
      · intro d hd
        rw [List.mem_singleton] at hd
        rw [hd]; exact hOK'
      · simp only [List.map_cons, List.map_nil, List.cons.injEq]
        exact ⟨increment_shape c, by trivial⟩
      · intro _
        simp only [brank]
        have := remB_pos c
        omega
  | cons c2 rest2 ih =>
    intro c hc hrest
    by_cases hs : (c.Increment).Saturated = true
    · have hval : incCarry (c.Increment :: c2 :: rest2) =
          ((c.Increment).init :: (incCarry (c2.Increment :: rest2)).1,
            (incCarry (c2.Increment :: rest2)).2) := by
        simp [incCarry, incCarryAux, hs]
      rw [hval]
      obtain ⟨ihOK, ihShape, ihRank⟩ :=
        ih c2 (hrest c2 (by simp)) (fun d hd => hrest d (by simp [hd]))
      have hini := coefOK_init_of_shape c (c.Increment) (increment_shape c) hc
      refine ⟨?_, ?_, ?_⟩
      · intro d hd
        rcases List.mem_cons.1 hd with h1 | h1
        · rw [h1]; exact hini.1
        · exact ihOK d h1
      · simp only [List.map_cons, List.cons.injEq]
        exact ⟨hini.2.2, ihShape⟩
      · intro hb
        have hlt := ihRank hb
        rw [brank_cons, brank_cons, rangeSize_eq_of_shape hini.2.2]
        have hR1 := rangeSize_pos c
        have hrb := hini.2.1
        have hrc := remB_pos c
        have hmul : rangeSize c * brank (incCarry (c2.Increment :: rest2)).1 + rangeSize c ≤
            rangeSize c * brank (c2 :: rest2) := by
          have hx : brank (incCarry (c2.Increment :: rest2)).1 + 1 ≤ brank (c2 :: rest2) := hlt
          calc rangeSize c * brank (incCarry (c2.Increment :: rest2)).1 + rangeSize c
              = rangeSize c * (brank (incCarry (c2.Increment :: rest2)).1 + 1) := by ring
            _ ≤ rangeSize c * brank (c2 :: rest2) := Nat.mul_le_mul_left _ hx
        omega
    · have hns : (c.Increment).Saturated = false := by
        revert hs; cases (c.Increment).Saturated <;> simp
      have hval : incCarry (c.Increment :: c2 :: rest2) =
          (c.Increment :: (lastCheck (c2 :: rest2)).1, (lastCheck (c2 :: rest2)).2) := by
        simp [incCarry, incCarryAux, hns]
      rw [hval]
      obtain ⟨lOK, lShape, lId⟩ := lastCheck_spec (c2 :: rest2) hrest
      obtain ⟨hOK', hdec, h2⟩ := remB_dec c hc hns
      refine ⟨?_, ?_, ?_⟩
      · intro d hd
        rcases List.mem_cons.1 hd with h1 | h1
        · rw [h1]; exact hOK'
        · exact lOK d h1
      · simp only [List.map_cons, List.cons.injEq]
        exact ⟨increment_shape c, lShape⟩
      · intro hb
        rw [lId hb]
        rw [brank_cons (c.Increment) (c2 :: rest2), brank_cons c (c2 :: rest2),
          rangeSize_eq_of_shape (increment_shape c)]
        omega

lemma brank_lt_prod : ∀ l : List Coef, (∀ c ∈ l, coefOK c) → brank l < prodRange l := by
  intro l
  induction l with
  | nil => intro _; simp [brank, prodRange]
  | cons c rest ih =>
    intro hOK
    have h1 := remB_le_range c (hOK c (by simp))
    have h2 := ih (fun d hd => hOK d (by simp [hd]))
    have h3 := rangeSize_pos c
    have hmul : rangeSize c * brank rest + rangeSize c ≤ rangeSize c * prodRange rest := by
      calc rangeSize c * brank rest + rangeSize c
          = rangeSize c * (brank rest + 1) := by ring
        _ ≤ rangeSize c * prodRange rest := Nat.mul_le_mul_left _ h2
    simp only [brank, prodRange]
    omega

lemma prodRange_eq_of_shape : ∀ l1 l2 : List Coef,
    l1.map shapeOf = l2.map shapeOf → prodRange l1 = prodRange l2 := by
  intro l1
  induction l1 with
  | nil =>
    intro l2 h
    cases l2 with
    | nil => rfl
    | cons c2 r2 => simp at h
  | cons c rest ih =>
    intro l2 h
    cases l2 with
    | nil => simp at h
    | cons c2 rest2 =>
      simp only [List.map_cons, List.cons.injEq] at h
      simp only [prodRange]
      rw [rangeSize_eq_of_shape h.1, ih rest2 h.2]

/-- One advancement step of a tame family: it never panics, preserves the
coefficient shapes, and — whenever it does not report `done` — keeps the
family tame and strictly decreases the mixed-radix rank. -/
lemma increment_step (hs : HashSequential) (hT : Tame hs) :
    ∃ hs' done, hs.Increment = some (hs', done) ∧
      hs'.Coefs.map shapeOf = hs.Coefs.map shapeOf ∧
      shapeOf hs'.LenCoef = shapeOf hs.LenCoef ∧
      (done = false → Tame hs' ∧ rank hs' < rank hs) := by
  obtain ⟨hne, hOKs, hOKL⟩ := hT
  obtain ⟨c0, rest, hc⟩ : ∃ c0 rest, hs.Coefs = c0 :: rest := by
    cases h : hs.Coefs with
    | nil => exact absurd h hne
    | cons a b => exact ⟨a, b, rfl⟩
  obtain ⟨cOK, cShape, cRank⟩ :=
    incCarry_spec rest c0 (hOKs c0 (by rw [hc]; exact List.mem_cons_self _ _))
      (fun d hd => hOKs d (by rw [hc]; exact List.mem_cons_of_mem _ hd))
  have hner : (incCarry (c0.Increment :: rest)).1 ≠ [] := by
    have hlen : (incCarry (c0.Increment :: rest)).1.length = (c0 :: rest).length := by
      rw [← List.length_map _ shapeOf, cShape, List.length_map]
    intro hX
    rw [hX] at hlen
    simp at hlen
  cases hb : (incCarry (c0.Increment :: rest)).2 with
  | false =>
    refine ⟨⟨hs.LenCoef, (incCarry (c0.Increment :: rest)).1⟩,
      decide (hs.LenCoef.MaxValue < hs.LenCoef.Value), ?_, ?_, ?_, ?_⟩
    · simp [HashSequential.Increment, hc, hb]
    · rw [hc]; exact cShape
    · rfl
    · intro _
      refine ⟨⟨hner, cOK, hOKL⟩, ?_⟩
      have hbr := cRank hb
      simp only [rank]
      rw [hc, prodRange_eq_of_shape _ _ cShape]
      omega
  | true =>
    refine ⟨⟨hs.LenCoef.Increment, (incCarry (c0.Increment :: rest)).1⟩,
      decide ((hs.LenCoef.Increment).MaxValue < (hs.LenCoef.Increment).Value),
      ?_, ?_, ?_, ?_⟩
    · simp [HashSequential.Increment, hc, hb]
    · rw [hc]; exact cShape
    · exact increment_shape _
    · intro hdone
      have hnd : (hs.LenCoef.Increment).Value ≤ (hs.LenCoef.Increment).MaxValue := by
        have := of_decide_eq_false hdone
        omega
      have hndM : (hs.LenCoef.Increment).Value ≤ hs.LenCoef.MaxValue := by
        rw [← (shape_fields (increment_shape hs.LenCoef)).2.2.1]
        exact hnd
      obtain ⟨hLOK, hLdec, hL2⟩ := remL_dec hs.LenCoef hOKL hndM
      refine ⟨⟨hner, cOK, hLOK⟩, ?_⟩
      simp only [rank]
      rw [hc, prodRange_eq_of_shape _ _ cShape, hLdec,
        show remL hs.LenCoef - 1 - 1 = remL hs.LenCoef - 2 from by omega]
      have hblt := brank_lt_prod _ cOK
      rw [prodRange_eq_of_shape _ _ cShape] at hblt
      have hsplit : prodRange (c0 :: rest) * (remL hs.LenCoef - 1) =
          prodRange (c0 :: rest) * (remL hs.LenCoef - 2) + prodRange (c0 :: rest) := by
        rw [show remL hs.LenCoef - 1 = (remL hs.LenCoef - 2) + 1 from by omega,
          Nat.mul_add, Nat.mul_one]
      omega

/-- Rank-bounded termination: from any tame state, the odometer reports
`done` within `rank + 1` advancement steps. -/
lemma steps_of_rank : ∀ (k : Nat) (hs : HashSequential), Tame hs → rank hs ≤ k →
    ∃ N, stepsToDone (k + 1) hs = some N ∧ N ≤ k + 1 := by
  intro k
  induction k with
  | zero =>
    intro hs hT hrk
    obtain ⟨hs', done, hinc, _, _, hnd⟩ := increment_step hs hT
    cases done with
    | true =>
      refine ⟨1, ?_, le_rfl⟩
      rw [stepsToDone, hinc]
      simp
    | false =>
      have := (hnd rfl).2
      omega
  | succ k ih =>
    intro hs hT hrk
    obtain ⟨hs', done, hinc, _, _, hnd⟩ := increment_step hs hT
    cases done with
    | true =>
      refine ⟨1, ?_, by omega⟩
      rw [stepsToDone, hinc]
      simp
    | false =>
      obtain ⟨hT', hlt⟩ := hnd rfl
      obtain ⟨N, hN, hNle⟩ := ih hs' hT' (by omega)
      refine ⟨N + 1, ?_, by omega⟩
      rw [stepsToDone, hinc]
      simp [hN]

lemma prodRange_pos : ∀ l : List Coef, 1 ≤ prodRange l := by
  intro l
  induction l with
  | nil => exact le_rfl
  | cons c rest ih =>
    simp only [prodRange]
    have := rangeSize_pos c
    calc 1 = 1 * 1 := rfl
      _ ≤ rangeSize c * prodRange rest := Nat.mul_le_mul this ih

lemma spaceBound_pos (hs : HashSequential) : 1 ≤ spaceBound hs := by
  unfold spaceBound
  have h1 := prodRange_pos hs.Coefs
  have h2 := rangeSize_pos hs.LenCoef
  calc 1 = 1 * 1 := rfl
    _ ≤ prodRange hs.Coefs * rangeSize hs.LenCoef := Nat.mul_le_mul h1 h2

lemma rank_lt_spaceBound (hs : HashSequential) (hT : Tame hs) :
    rank hs < spaceBound hs := by
  obtain ⟨hne, hOKs, hOKL⟩ := hT
  have h1 := brank_lt_prod hs.Coefs hOKs
  have h2 := remL_le_range hs.LenCoef hOKL
  have h3 := remL_pos hs.LenCoef
  unfold rank spaceBound
  have hmul : prodRange hs.Coefs * (remL hs.LenCoef - 1) + prodRange hs.Coefs ≤
      prodRange hs.Coefs * rangeSize hs.LenCoef := by
    calc prodRange hs.Coefs * (remL hs.LenCoef - 1) + prodRange hs.Coefs
        = prodRange hs.Coefs * (remL hs.LenCoef - 1 + 1) := by ring
      _ ≤ prodRange hs.Coefs * rangeSize hs.LenCoef :=
          Nat.mul_le_mul_left _ (by omega)
  omega

/-- A tame family exhausts its odometer in at most `spaceBound` steps. -/
lemma tame_terminates (hs : HashSequential) (hT : Tame hs) :
    ∃ N, stepsToDone (spaceBound hs) hs = some N ∧ N ≤ spaceBound hs := by
  have hrk := rank_lt_spaceBound hs hT
  have hpos := spaceBound_pos hs
  obtain ⟨N, hN, hNle⟩ := steps_of_rank (spaceBound hs - 1) hs hT (by omega)
  rw [show spaceBound hs - 1 + 1 = spaceBound hs from by omega] at hN hNle
  exact ⟨N, hN, hNle⟩

/-! Valid operations are preserved by advancement, and the search loop
makes progress whenever evaluation cannot panic. -/

lemma init_Op (c : Coef) : (c.init).Op = if c.Op = 0 then OpAdd else c.Op := by
  unfold Coef.init
  by_cases h1 : c.StartValue = 0 <;> by_cases h2 : c.Op = 0 <;> simp [h1, h2]

lemma init_validOp (c : Coef) (h : validOp c) : validOp (c.init) := by
  unfold validOp at *
  rw [init_Op]
  split
  · left; rfl
  · exact h

lemma increment_Op (c : Coef) : (c.Increment).Op = c.Op := by
  unfold Coef.Increment
  split <;> rfl

lemma increment_validOp (c : Coef) (h : validOp c) : validOp (c.Increment) := by
  unfold validOp at *
  rw [increment_Op]
  exact h

lemma lastCheck_pres (P : Coef → Prop) (hinit : ∀ c, P c → P c.init) :
    ∀ l : List Coef, (∀ c ∈ l, P c) → ∀ c ∈ (lastCheck l).1, P c := by
  intro l
  induction l with
  | nil => intro _ c hc; simp [lastCheck] at hc
  | cons c rest ih =>
    intro hOK
    cases rest with
    | nil =>
      by_cases hs : c.Saturated = true
      · rw [show lastCheck [c] = ([c.init], true) from by simp [lastCheck, hs]]
        intro d hd
        rw [List.mem_singleton] at hd
        rw [hd]; exact hinit c (hOK c (by simp))
      · rw [show lastCheck [c] = ([c], false) from by simp [lastCheck, hs]]
        exact hOK
    | cons c2 rest2 =>
      rw [show lastCheck (c :: c2 :: rest2) =
          (c :: (lastCheck (c2 :: rest2)).1, (lastCheck (c2 :: rest2)).2) from by
        simp [lastCheck]]
      intro d hd
      rcases List.mem_cons.1 hd with h1 | h1
      · rw [h1]; exact hOK c (by simp)
      · exact ih (fun e he => hOK e (by simp [he])) d h1

lemma incCarry_pres (P : Coef → Prop) (hinit : ∀ c, P c → P c.init)
    (hinc : ∀ c, P c → P c.Increment) :
    ∀ (rest : List Coef) (c : Coef), P c → (∀ d ∈ rest, P d) →
      ∀ d ∈ (incCarry (c :: rest)).1, P d := by
  intro rest
  induction rest with
  | nil =>
    intro c hc _
    by_cases hs : c.Saturated = true
    · rw [show incCarry [c] = ([c.init], true) from by simp [incCarry, incCarryAux, hs]]
      intro d hd
      rw [List.mem_singleton] at hd
      rw [hd]; exact hinit c hc
    · rw [show incCarry [c] = ([c], false) from by simp [incCarry, incCarryAux, hs]]
      intro d hd
      rw [List.mem_singleton] at hd
      rw [hd]; exact hc
  | cons c2 rest2 ih =>
    intro c hc hrest
    by_cases hs : c.Saturated = true
    · rw [show incCarry (c :: c2 :: rest2) =
          (c.init :: (incCarry (c2.Increment :: rest2)).1,
            (incCarry (c2.Increment :: rest2)).2) from by simp [incCarry, incCarryAux, hs]]
      intro d hd
      rcases List.mem_cons.1 hd with h1 | h1
      · rw [h1]; exact hinit c hc
      · exact ih (c2.Increment) (hinc c2 (hrest c2 (by simp)))
          (fun e he => hrest e (by simp [he])) d h1
    · rw [show incCarry (c :: c2 :: rest2) =
          (c :: (lastCheck (c2 :: rest2)).1, (lastCheck (c2 :: rest2)).2) from by
        simp [incCarry, incCarryAux, hs]]
      intro d hd
      rcases List.mem_cons.1 hd with h1 | h1
      · rw [h1]; exact hc
      · exact lastCheck_pres P hinit (c2 :: rest2) hrest d h1

lemma increment_cases (hs hs' : HashSequential) (d : Bool)
    (h : hs.Increment = some (hs', d)) :
    ∃ c0 rest, hs.Coefs = c0 :: rest ∧
      hs'.Coefs = (incCarry (c0.Increment :: rest)).1 := by
  cases hcs : hs.Coefs with
  | nil => rw [HashSequential.Increment, hcs] at h; cases h
  | cons c0 rest =>
    rw [HashSequential.Increment, hcs] at h
    simp only [Option.some.injEq, Prod.mk.injEq] at h
    refine ⟨c0, rest, rfl, ?_⟩
    rw [← h.1]

lemma validOps_increment (hs hs' : HashSequential) (d : Bool)
    (hops : ValidOps hs) (h : hs.Increment = some (hs', d)) : ValidOps hs' := by
  obtain ⟨c0, rest, hcs, hco⟩ := increment_cases hs hs' d h
  unfold ValidOps
  rw [hco]
  exact incCarry_pres validOp init_validOp increment_validOp rest (c0.Increment)
    (increment_validOp c0 (hops c0 (by rw [hcs]; simp)))
    (fun e he => hops e (by rw [hcs]; simp [he]))

lemma init_validIdx (c : Coef) (h : validIdx c) : validIdx (c.init) := by
  unfold validIdx at *
  rw [(shape_fields (init_shape c)).1]
  exact h

lemma increment_validIdx (c : Coef) (h : validIdx c) : validIdx (c.Increment) := by
  unfold validIdx at *
  rw [(shape_fields (increment_shape c)).1]
  exact h

lemma validIdxs_increment (hs hs' : HashSequential) (d : Bool)
    (hidxs : ValidIdxs hs) (h : hs.Increment = some (hs', d)) : ValidIdxs hs' := by
  obtain ⟨c0, rest, hcs, hco⟩ := increment_cases hs hs' d h
  unfold ValidIdxs
  rw [hco]
  exact incCarry_pres validIdx init_validIdx increment_validIdx rest (c0.Increment)
    (increment_validIdx c0 (hidxs c0 (by rw [hcs]; simp)))
    (fun e he => hidxs e (by rw [hcs]; simp [he]))

lemma placeInputs_total (hs : HashSequential) (mask : Nat) (hops : ValidOps hs)
    (hidxs : ValidIdxs hs) :
    ∀ (inputs : List Str) (hm : List Nat), ∃ r, placeInputs hs mask hm inputs = some r := by
  intro inputs
  induction inputs with
  | nil => intro hm; exact ⟨(hm, true), rfl⟩
  | cons kw rest ih =>
    intro hm
    have hh := hash_isSome hs kw hops hidxs
    cases hhv : hs.Hash kw with
    | none => rw [hhv] at hh; simp at hh
    | some hv =>
      rw [placeInputs, hhv]
      simp only
      by_cases hslot : hm.getD (hv &&& mask) 0 ≠ 0
      · rw [if_pos hslot]; exact ⟨_, rfl⟩
      · rw [if_neg hslot]; exact ih _

lemma placeInputs_not_true (hs : HashSequential) (mask : Nat) (inputs : List Str)
    (hm hm' : List Nat) (hlen : mask < hm.length) (hdup : ¬ inputs.Nodup) :
    placeInputs hs mask hm inputs ≠ some (hm', true) := by
  intro hrun
  obtain ⟨_, hNodup, _⟩ := placeInputs_success hs mask inputs hm hm' hlen hrun
  exact hdup (List.Nodup.of_map _ hNodup)

lemma stepsToDone_succ (f : Nat) (hs : HashSequential) (N : Nat)
    (h : stepsToDone (f + 1) hs = some N) :
    ∃ hs' done, hs.Increment = some (hs', done) ∧ 1 ≤ N ∧
      ((done = true ∧ N = 1) ∨
        (done = false ∧ ∃ N0, stepsToDone f hs' = some N0 ∧ N = N0 + 1)) := by
  rw [stepsToDone] at h
  cases hinc : hs.Increment with
  | none => rw [hinc] at h; cases h
  | some p =>
    obtain ⟨hs', done⟩ := p
    rw [hinc] at h
    simp only at h
    cases done with
    | true =>
      rw [if_pos rfl] at h
      simp only [Option.some.injEq] at h
      exact ⟨hs', true, rfl, by omega, Or.inl ⟨rfl, h.symm⟩⟩
    | false =>
      rw [if_neg (by simp)] at h
      cases hsd : stepsToDone f hs' with
      | none => rw [hsd] at h; simp at h
      | some N0 =>
        rw [hsd] at h
        simp only [Option.map_some', Option.some.injEq] at h
        exact ⟨hs', false, rfl, by omega, Or.inr ⟨rfl, N0, hsd, h.symm⟩⟩

lemma stepsToDone_mono (f f' : Nat) (hs : HashSequential) (N : Nat)
    (hle : f ≤ f') (h : stepsToDone f hs = some N) : stepsToDone f' hs = some N := by
  induction f generalizing f' hs N with
  | zero => rw [stepsToDone] at h; cases h
  | succ f ih =>
    obtain ⟨f2, rfl⟩ : ∃ f2, f' = f2 + 1 := ⟨f' - 1, by omega⟩
    obtain ⟨hs2, done, hinc, _, hcase⟩ := stepsToDone_succ f hs N h
    rw [stepsToDone, hinc]
    simp only
    rcases hcase with ⟨hdt, hN⟩ | ⟨hdf, N0, hN0, hN⟩
    · rw [hdt, if_pos rfl, hN]
    · rw [hdf]
      rw [if_neg (by simp)]
      rw [ih f2 hs2 N0 (by omega) hN0, hN]
      rfl

lemma searchLoop_exhausts (mask tblsz : Nat) (inputs : List Str) (hmt : mask < tblsz)
    (hdup : ¬ inputs.Nodup) :
    ∀ (f : Nat) (hs : HashSequential) (ca : Nat) (hm : List Nat) (N : Nat),
      stepsToDone f hs = some N → ValidOps hs → ValidIdxs hs →
      ∃ hm' hs', searchLoop mask tblsz inputs f hs ca hm =
        .ok ⟨hm'⟩ hs' (ca + N) (some .noCoefficientsFound) := by
  intro f
  induction f with
  | zero => intro hs ca hm N h _ _; rw [stepsToDone] at h; cases h
  | succ f ih =>
    intro hs ca hm N hst hops hidxs
    obtain ⟨hs2, done, hinc, _, hcase⟩ := stepsToDone_succ f hs N hst
    obtain ⟨⟨hm1, b⟩, hpl⟩ := placeInputs_total hs mask hops hidxs inputs (List.replicate tblsz 0)
    have hb : b = false := by
      cases b with
      | false => rfl
      | true =>
        exact absurd hpl (placeInputs_not_true hs mask inputs _ hm1
          (by rw [List.length_replicate]; exact hmt) hdup)
    subst hb
    rw [searchLoop, hpl]
    simp only [Bool.false_eq_true, if_false]
    rw [hinc]
    simp only
    rcases hcase with ⟨hdt, hN⟩ | ⟨hdf, N0, hN0, hN⟩
    · rw [hdt, if_pos rfl, hN]
      exact ⟨hm1, hs2, rfl⟩
    · rw [hdf]
      rw [if_neg (by simp)]
      obtain ⟨hm', hs', hrec⟩ := ih hs2 (ca + 1) hm1 N0 hN0
        (validOps_increment hs hs2 done hops hinc)
        (validIdxs_increment hs hs2 done hidxs hinc)
      refine ⟨hm', hs', ?_⟩
      rw [hrec, hN]
      congr 1
      omega

lemma searchLoop_terminates (mask tblsz : Nat) (inputs : List Str) (hmt : mask < tblsz) :
    ∀ (f : Nat) (hs : HashSequential) (ca : Nat) (hm : List Nat) (N : Nat),
      stepsToDone f hs = some N → ValidOps hs → ValidIdxs hs →
      ∃ phf' hs' n e, searchLoop mask tblsz inputs f hs ca hm = .ok phf' hs' n e ∧
        n ≤ ca + N := by
  intro f
  induction f with
  | zero => intro hs ca hm N h _ _; rw [stepsToDone] at h; cases h
  | succ f ih =>
    intro hs ca hm N hst hops hidxs
    obtain ⟨hs2, done, hinc, hN1, hcase⟩ := stepsToDone_succ f hs N hst
    obtain ⟨⟨hm1, b⟩, hpl⟩ := placeInputs_total hs mask hops hidxs inputs (List.replicate tblsz 0)
    rw [searchLoop, hpl]
    simp only
    cases b with
    | true =>
      rw [if_pos rfl]
      exact ⟨⟨hm1⟩, hs, ca + 1, none, rfl, by omega⟩
    | false =>
      rw [if_neg (by simp)]
      rw [hinc]
      simp only
      rcases hcase with ⟨hdt, hN⟩ | ⟨hdf, N0, hN0, hN⟩
      · rw [hdt, if_pos rfl]
        exact ⟨⟨hm1⟩, hs2, ca + 1, some .noCoefficientsFound, rfl, by omega⟩
      · rw [hdf]
        rw [if_neg (by simp)]
        obtain ⟨phf', hs', n, e, hrec, hn⟩ := ih hs2 (ca + 1) hm1 N0 hN0
          (validOps_increment hs hs2 done hops hinc)
          (validIdxs_increment hs hs2 done hidxs hinc)
        exact ⟨phf', hs', n, e, hrec, by omega⟩

lemma searchLoop_never_none (mask tblsz : Nat) (inputs : List Str) (hmt : mask < tblsz)
    (hdup : ¬ inputs.Nodup) :
    ∀ (f : Nat) (hs : HashSequential) (ca : Nat) (hm : List Nat)
      (phf' : HashFinder) (hs' : HashSequential) (n : Nat),
      searchLoop mask tblsz inputs f hs ca hm ≠ .ok phf' hs' n none := by
  intro f
  induction f with
  | zero => intro hs ca hm phf' hs' n h; rw [searchLoop] at h; cases h
  | succ f ih =>
    intro hs ca hm phf' hs' n h
    rw [searchLoop] at h
    cases hpl : placeInputs hs mask (List.replicate tblsz 0) inputs with
    | none => rw [hpl] at h; cases h
    | some r =>
      obtain ⟨hm1, b⟩ := r
      rw [hpl] at h
      simp only at h
      cases b with
      | true =>
        exact placeInputs_not_true hs mask inputs _ hm1
          (by rw [List.length_replicate]; exact hmt) hdup hpl
      | false =>
        rw [if_neg (by simp)] at h
        cases hinc : hs.Increment with
        | none => rw [hinc] at h; cases h
        | some p =>
          obtain ⟨hs2, done⟩ := p
          rw [hinc] at h
          simp only at h
          cases done with
          | true =>
            rw [if_pos rfl] at h
            simp at h
          | false =>
            rw [if_neg (by simp)] at h
            exact ih hs2 (ca + 1) hm1 phf' hs' n h

/-! Iterated advancement for the no-revisit property. -/

lemma iterateInc_spec : ∀ (n : Nat) (hs hs' : HashSequential), Tame hs →
    iterateInc n hs = some hs' →
    Tame hs' ∧ hs'.Coefs.map shapeOf = hs.Coefs.map shapeOf ∧
      shapeOf hs'.LenCoef = shapeOf hs.LenCoef ∧ rank hs' + n ≤ rank hs := by
  intro n
  induction n with
  | zero =>
    intro hs hs' hT h
    rw [iterateInc] at h
    injection h with h
    subst h
    exact ⟨hT, rfl, rfl, by omega⟩
  | succ n ih =>
    intro hs hs' hT h
    rw [iterateInc] at h
    obtain ⟨hs1, done, hinc, hsh1, hshL1, hnd⟩ := increment_step hs hT
    rw [hinc] at h
    simp only at h
    cases done with
    | true => rw [if_pos rfl] at h; cases h
    | false =>
      rw [if_neg (by simp)] at h
      obtain ⟨hT1, hrk1⟩ := hnd rfl
      obtain ⟨hT', hsh', hshL', hrk'⟩ := ih hs1 hs' hT1 h
      exact ⟨hT', hsh'.trans hsh1, hshL'.trans hshL1, by omega⟩

lemma iterateInc_add (m n : Nat) : ∀ hs : HashSequential,
    iterateInc (m + n) hs =
      match iterateInc m hs with
      | none => none
      | some h1 => iterateInc n h1 := by
  induction m with
  | zero =>
    intro hs
    rw [Nat.zero_add]
    rfl
  | succ m ih =>
    intro hs
    have h1 : iterateInc (m + 1 + n) hs =
        match hs.Increment with
        | none => none
        | some (hs1, done) => if done then none else iterateInc (m + n) hs1 := by
      rw [show m + 1 + n = (m + n) + 1 from by omega, iterateInc]
    have h2 : iterateInc (m + 1) hs =
        match hs.Increment with
        | none => none
        | some (hs1, done) => if done then none else iterateInc m hs1 := by
      rw [iterateInc]
    rw [h1, h2]
    cases hinc : hs.Increment with
    | none => rfl
    | some p =>
      obtain ⟨hs1, done⟩ := p
      simp only
      cases done with
      | true => simp
      | false =>
        rw [if_neg (by simp), if_neg (by simp)]
        exact ih hs1

lemma brank_eq_of_values : ∀ l1 l2 : List Coef,
    l1.map shapeOf = l2.map shapeOf → l1.map Coef.Value = l2.map Coef.Value →
    brank l1 = brank l2 := by
  intro l1
  induction l1 with
  | nil =>
    intro l2 h _
    cases l2 with
    | nil => rfl
    | cons c2 r2 => simp at h
  | cons c rest ih =>
    intro l2 hsh hv
    cases l2 with
    | nil => simp at hsh
    | cons c2 rest2 =>
      simp only [List.map_cons, List.cons.injEq] at hsh hv
      rw [brank_cons, brank_cons]
      have hrB : remB c = remB c2 := by
        unfold remB
        rw [(shape_fields hsh.1).2.2.1, (shape_fields hsh.1).2.2.2, hv.1]
      rw [hrB, rangeSize_eq_of_shape hsh.1, ih rest2 hsh.2 hv.2]

lemma rank_eq_of_values (h1 h2 : HashSequential)
    (hsh : h1.Coefs.map shapeOf = h2.Coefs.map shapeOf)
    (hshL : shapeOf h1.LenCoef = shapeOf h2.LenCoef)
    (hv : valueTuple h1 = valueTuple h2) : rank h1 = rank h2 := by
  have hv1 : h1.Coefs.map Coef.Value = h2.Coefs.map Coef.Value := congrArg Prod.fst hv
  have hv2 : h1.LenCoef.Value = h2.LenCoef.Value := congrArg Prod.snd hv
  have hremL : remL h1.LenCoef = remL h2.LenCoef := by
    unfold remL
    rw [(shape_fields hshL).2.2.1, (shape_fields hshL).2.2.2, hv2]
  unfold rank
  rw [brank_eq_of_values _ _ hsh hv1, prodRange_eq_of_shape _ _ hsh, hremL]

/-- Claim C5 (amended): starting from a tame coefficient state — one whose
ranges cannot overflow the 64-bit counters — repeated `Increment` never
revisits a coefficient-value tuple before reporting `done`: the mixed-radix
rank strictly decreases at every step, so all visited tuples are distinct. -/
theorem no_revisit_before_done (hs : HashSequential) (htame : Tame hs)
    (i j : Nat) (hsi hsj : HashSequential) (hij : i < j)
    (hi : iterateInc i hs = some hsi) (hj : iterateInc j hs = some hsj) :
    valueTuple hsi ≠ valueTuple hsj := by
  have hsplit := iterateInc_add i (j - i) hs
  rw [show i + (j - i) = j from by omega, hj, hi] at hsplit
  obtain ⟨hTi, _, _, _⟩ := iterateInc_spec i hs hsi htame hi
  obtain ⟨_, hshj, hshLj, hrkj⟩ := iterateInc_spec (j - i) hsi hsj hTi hsplit.symm
  intro heq
  have := rank_eq_of_values hsj hsi hshj hshLj heq.symm
  omega

/-- Counterexample to claim C5 as stated: `cexStart` is a configured family
(the output of `ConfigCoefs` on `cexPre`), yet its power-of-two coefficient
wraps `2^63 * 2` to 0, and from then on advancement is stuck at value 0: the
tuple visited after 1 step is visited again after 2 steps, with `done` never
reported. -/
theorem revisit_counterexample :
    HashSequential.ConfigCoefs cexPre 16 = .ok cexStart ∧
    iterateInc 1 cexStart = some cexLoop ∧
    iterateInc 2 cexStart = some cexLoop := by
  refine ⟨by rfl, by decide, by decide⟩

/-- Witness for the amended claim C5 at a concrete tame family. -/
theorem no_revisit_before_done_witness :
    valueTuple ⟨⟨0, 1, 4, 1, false, OpAdd⟩, [⟨0, 1, 3, 1, false, OpAdd⟩]⟩ ≠
      valueTuple ⟨⟨0, 1, 4, 1, false, OpAdd⟩, [⟨0, 2, 3, 1, false, OpAdd⟩]⟩ :=
  no_revisit_before_done ⟨⟨0, 1, 4, 1, false, OpAdd⟩, [⟨0, 1, 3, 1, false, OpAdd⟩]⟩
    (by decide) 0 1 _ _ (by decide) (by decide) (by decide)

/-! Claims C2 and C3: exhaustion on duplicates, termination and the
attempt bound — plus the wraparound counterexamples to the unrestricted
statements. -/

/-- Claim C3 (amended): for a configured, tame family with supported
operations and no byte index equal to `math.MinInt64` (where evaluation
faults), `Search` terminates for every argument — some fuel returns a Go
result — and the attempt count (in particular on the `noCoefficientsFound`
exhaustion failure) never exceeds `spaceBound`, the product of every
coefficient's range size `maxValue - startValue + 1` including the length
coefficient's. -/
theorem search_terminates_and_bound (hs0 hs : HashSequential) (dm : Nat)
    (hcfg : hs0.ConfigCoefs dm = .ok hs) (htame : Tame hs) (hops : ValidOps hs)
    (hidxs : ValidIdxs hs)
    (phf : HashFinder) (tableSizeBits : Int) (inputs : List Str) :
    ∃ fuel phf' hs' n e,
      HashFinder.Search phf hs tableSizeBits inputs fuel = .ok phf' hs' n e ∧
        n ≤ spaceBound hs := by
  by_cases hb : tableSizeBits ≤ 0 ∨ 32 < tableSizeBits
  · refine ⟨0, phf, hs, 0, some .badTableSizeBits, ?_, ?_⟩
    · rw [HashFinder.Search, if_pos hb]
    · have := spaceBound_pos hs; omega
  · by_cases hz : inputs.length = 0
    · refine ⟨0, phf, hs, 0, some .zeroInputs, ?_, ?_⟩
      · rw [HashFinder.Search, if_neg hb, if_pos hz]
      · have := spaceBound_pos hs; omega
    · obtain ⟨N, hN, hNle⟩ := tame_terminates hs htame
      have hmt : 2 ^ tableSizeBits.toNat - 1 < 2 ^ tableSizeBits.toNat :=
        Nat.sub_lt (Nat.two_pow_pos _) Nat.one_pos
      obtain ⟨phf', hs', n, e, hrun, hn⟩ :=
        searchLoop_terminates _ _ inputs hmt (spaceBound hs) hs 0 _ N hN hops hidxs
      refine ⟨spaceBound hs, phf', hs', n, e, ?_, by omega⟩
      rw [HashFinder.Search, if_neg hb, if_neg hz]
      exact hrun

/-- Claim C2 (amended): for a configured, tame family with supported
operations, no byte index equal to `math.MinInt64` (where evaluation
faults), and inputs containing an exact duplicate, `Search` never returns
a nil error for any fuel; the search space is exhausted in exactly `N`
advancement steps (`stepsToDone`), and every sufficiently fuelled run returns
the `noCoefficientsFound` failure with attempt count exactly `N` — the
number of coefficient configurations the odometer reaches, which is at most
`spaceBound`. -/
theorem search_duplicates_never_succeed (hs0 hs : HashSequential) (dm : Nat)
    (hcfg : hs0.ConfigCoefs dm = .ok hs) (htame : Tame hs) (hops : ValidOps hs)
    (hidxs : ValidIdxs hs)
    (tableSizeBits : Int) (inputs : List Str) (hdup : ¬ inputs.Nodup)
    (hb0 : 0 < tableSizeBits) (hb32 : tableSizeBits ≤ 32) :
    (∀ (fuel : Nat) (phf phf' : HashFinder) (hs' : HashSequential) (n : Nat),
      HashFinder.Search phf hs tableSizeBits inputs fuel ≠ .ok phf' hs' n none) ∧
    ∃ N, stepsToDone (spaceBound hs) hs = some N ∧ N ≤ spaceBound hs ∧
      ∀ (phf : HashFinder) (fuel : Nat), spaceBound hs ≤ fuel →
        ∃ hm' hs', HashFinder.Search phf hs tableSizeBits inputs fuel =
          .ok ⟨hm'⟩ hs' N (some .noCoefficientsFound) := by
  have hbneg : ¬(tableSizeBits ≤ 0 ∨ 32 < tableSizeBits) := by omega
  have hz : ¬ inputs.length = 0 := by
    intro h0
    rw [List.length_eq_zero] at h0
    subst h0
    exact hdup List.nodup_nil
  have hmt : 2 ^ tableSizeBits.toNat - 1 < 2 ^ tableSizeBits.toNat :=
    Nat.sub_lt (Nat.two_pow_pos _) Nat.one_pos
  constructor
  · intro fuel phf phf' hs' n hrun
    rw [HashFinder.Search, if_neg hbneg, if_neg hz] at hrun
    exact searchLoop_never_none _ _ inputs hmt hdup fuel hs 0 _ phf' hs' n hrun
  · obtain ⟨N, hN, hNle⟩ := tame_terminates hs htame
    refine ⟨N, hN, hNle, ?_⟩
    intro phf fuel hfuel
    have hNf := stepsToDone_mono (spaceBound hs) fuel hs N hfuel hN
    obtain ⟨hm', hs', hrun⟩ :=
      searchLoop_exhausts _ _ inputs hmt hdup fuel hs 0 _ N hNf hops hidxs
    rw [Nat.zero_add] at hrun
    refine ⟨hm', hs', ?_⟩
    rw [HashFinder.Search, if_neg hbneg, if_neg hz]
    exact hrun

lemma cexLoop_increment : cexLoop.Increment = some (cexLoop, false) := by decide

lemma searchLoop_cexLoop : ∀ (f ca : Nat) (hm : List Nat),
    searchLoop 1 2 dupInputs f cexLoop ca hm = .fuelOut := by
  intro f
  induction f with
  | zero => intro ca hm; rfl
  | succ f ih =>
    intro ca hm
    have hstep : searchLoop 1 2 dupInputs (f + 1) cexLoop ca hm =
        searchLoop 1 2 dupInputs f cexLoop (ca + 1) [0, 1] := rfl
    rw [hstep]
    exact ih (ca + 1) [0, 1]

/-- Counterexample to claim C3 as stated: `cexStart` is a configured family
(`ConfigCoefs` output) with valid arguments to `Search`, yet the
power-of-two coefficient wraps `2^63 * 2` to 0 and can never saturate again,
so the attempt loop never reaches success or odometer exhaustion: every fuel
runs out. -/
theorem search_nontermination_counterexample :
    HashSequential.ConfigCoefs cexPre 16 = .ok cexStart ∧
    ∀ fuel : Nat, HashFinder.Search ⟨[]⟩ cexStart 1 dupInputs fuel = .fuelOut := by
  refine ⟨by rfl, ?_⟩
  intro fuel
  cases fuel with
  | zero => rfl
  | succ f =>
    have hstep : HashFinder.Search ⟨[]⟩ cexStart 1 dupInputs (f + 1) =
        searchLoop 1 2 dupInputs f cexLoop 1 [0, 1] := rfl
    rw [hstep]
    exact searchLoop_cexLoop f 1 [0, 1]

/-- Counterexample to claim C2 as stated: a configured family and a
duplicate-bearing input list on which `Search` neither succeeds nor ever
reports the exhaustion failure — the wrapped power-of-two coefficient keeps
the odometer from exhausting, so no attempt count is ever returned. -/
theorem duplicates_no_exhaustion_counterexample :
    HashSequential.ConfigCoefs cexPre 16 = .ok cexStart ∧
    ¬ dupInputs.Nodup ∧
    ∀ fuel : Nat, HashFinder.Search ⟨[]⟩ cexStart 1 dupInputs fuel = .fuelOut := by
  refine ⟨by rfl, by decide, ?_⟩
  intro fuel
  cases fuel with
  | zero => rfl
  | succ f =>
    have hstep : HashFinder.Search ⟨[]⟩ cexStart 1 dupInputs (f + 1) =
        searchLoop 1 2 dupInputs f cexLoop 1 [0, 1] := rfl
    rw [hstep]
    exact searchLoop_cexLoop f 1 [0, 1]

/-- Claim C4 (code bug): a family with an empty byte-coefficient list is
produced by `ConfigCoefs` without error, but `Increment` faults on it — the
Go code's first statement `coefs[0].Increment()` indexes an empty slice —
and a `Search` whose first attempt collides therefore panics instead of
exhausting after `lengthRange` attempts. -/
theorem empty_coefs_increment_panics :
    HashSequential.ConfigCoefs emptyCoefsPre 16 = .ok emptyCoefs ∧
    emptyCoefs.Increment = none ∧
    HashFinder.Search ⟨[]⟩ emptyCoefs 1 dupInputs 1 = .fault :=
  ⟨by rfl, rfl, by decide⟩

/-! Claim C9: the success-probability estimator. -/

lemma fallingProduct_factor_nonneg (ts n : Nat) (hts : 0 < ts) (hn : n ≤ ts) :
    ∀ i ∈ Finset.range n, (0 : ℚ) ≤ 1 - (i : ℚ) / (ts : ℚ) := by
  intro i hi
  rw [Finset.mem_range] at hi
  have h1 : (i : ℚ) ≤ (ts : ℚ) := by
    exact_mod_cast le_of_lt (lt_of_lt_of_le hi hn)
  have h2 : (0 : ℚ) < (ts : ℚ) := by exact_mod_cast hts
  rw [sub_nonneg, div_le_one h2]
  exact h1

lemma fallingProduct_nonneg (ts n : Nat) (hts : 0 < ts) (hn : n ≤ ts) :
    0 ≤ fallingProduct ts n :=
  Finset.prod_nonneg (fallingProduct_factor_nonneg ts n hts hn)

lemma fallingProduct_le_one (ts n : Nat) (hts : 0 < ts) (hn : n ≤ ts) :
    fallingProduct ts n ≤ 1 := by
  apply Finset.prod_le_one (fallingProduct_factor_nonneg ts n hts hn)
  intro i hi
  have h2 : (0 : ℚ) < (ts : ℚ) := by exact_mod_cast hts
  have : (0 : ℚ) ≤ (i : ℚ) / (ts : ℚ) := div_nonneg (by positivity) (le_of_lt h2)
  linarith

lemma fallingProduct_one_input (ts n : Nat) (hn : n ≤ 1) : fallingProduct ts n = 1 := by
  match n, hn with
  | 0, _ => simp [fallingProduct]
  | 1, _ => simp [fallingProduct]

lemma fallingProduct_succ_le (ts n : Nat) (hts : 0 < ts) (hn : n + 1 ≤ ts) :
    fallingProduct ts (n + 1) ≤ fallingProduct ts n := by
  unfold fallingProduct
  rw [Finset.prod_range_succ]
  have h0 : 0 ≤ ∏ i ∈ Finset.range n, (1 - (i : ℚ) / (ts : ℚ)) :=
    Finset.prod_nonneg (fallingProduct_factor_nonneg ts n hts (by omega))
  have h2 : (0 : ℚ) < (ts : ℚ) := by exact_mod_cast hts
  have hf : 1 - (n : ℚ) / (ts : ℚ) ≤ 1 := by
    have : (0 : ℚ) ≤ (n : ℚ) / (ts : ℚ) := div_nonneg (by positivity) (le_of_lt h2)
    linarith
  calc (∏ i ∈ Finset.range n, (1 - (i : ℚ) / (ts : ℚ))) * (1 - (n : ℚ) / (ts : ℚ))
      ≤ (∏ i ∈ Finset.range n, (1 - (i : ℚ) / (ts : ℚ))) * 1 :=
        mul_le_mul_of_nonneg_left hf h0
    _ = ∏ i ∈ Finset.range n, (1 - (i : ℚ) / (ts : ℚ)) := mul_one _

lemma fallingProduct_anti (ts : Nat) (hts : 0 < ts) :
    ∀ n m : Nat, m ≤ n → n ≤ ts → fallingProduct ts n ≤ fallingProduct ts m := by
  intro n
  induction n with
  | zero =>
    intro m h1 _
    have : m = 0 := by omega
    subst this
    exact le_rfl
  | succ n ih =>
    intro m hmn hn
    by_cases hc : m = n + 1
    · subst hc; exact le_rfl
    · exact le_trans (fallingProduct_succ_le ts n hts hn)
        (ih m (by omega) (by omega))

/-- Claim C9 (spec-modelled): the success-probability estimator fails on
out-of-range table-size bits; for valid bits it fails (probability 0) when
the input count exceeds the table size, returns the falling-factorial
product `∏ (1 - i/tableSize)` — a probability in `[0, 1]` — when it fits,
returns exactly 1 when the input count is at most 1, and is monotonically
non-increasing in the input count for a fixed table size. -/
theorem estimator_properties (phf : HashFinder) (tableSizeBits : Int)
    (m n searchSpaceSize : Nat) :
    (tableSizeBits ≤ 0 ∨ 32 < tableSizeBits →
      phf.SearchSuccessProbability tableSizeBits n searchSpaceSize =
        (0, some "zero/negative bits for table size or too large")) ∧
    (0 < tableSizeBits → tableSizeBits ≤ 32 →
      (2 ^ tableSizeBits.toNat < n →
        phf.SearchSuccessProbability tableSizeBits n searchSpaceSize =
          (0, some "input count exceeds table size")) ∧
      (n ≤ 2 ^ tableSizeBits.toNat →
        phf.SearchSuccessProbability tableSizeBits n searchSpaceSize =
          (fallingProduct (2 ^ tableSizeBits.toNat) n, none) ∧
        0 ≤ fallingProduct (2 ^ tableSizeBits.toNat) n ∧
        fallingProduct (2 ^ tableSizeBits.toNat) n ≤ 1) ∧
      (n ≤ 1 →
        phf.SearchSuccessProbability tableSizeBits n searchSpaceSize = (1, none)) ∧
      (m ≤ n → n ≤ 2 ^ tableSizeBits.toNat →
        fallingProduct (2 ^ tableSizeBits.toNat) n ≤
          fallingProduct (2 ^ tableSizeBits.toNat) m)) := by
  have hts : 0 < 2 ^ tableSizeBits.toNat := Nat.two_pow_pos _
  constructor
  · intro hb
    rw [HashFinder.SearchSuccessProbability, if_pos hb]
  · intro hb0 hb32
    have hbneg : ¬(tableSizeBits ≤ 0 ∨ 32 < tableSizeBits) := by omega
    refine ⟨?_, ?_, ?_, ?_⟩
    · intro hgt
      rw [HashFinder.SearchSuccessProbability, if_neg hbneg]
      show (if 2 ^ tableSizeBits.toNat < n then _ else _) = _
      rw [if_pos hgt]
    · intro hle
      refine ⟨?_, fallingProduct_nonneg _ n hts hle, fallingProduct_le_one _ n hts hle⟩
      rw [HashFinder.SearchSuccessProbability, if_neg hbneg]
      show (if 2 ^ tableSizeBits.toNat < n then _ else _) = _
      rw [if_neg (by omega)]
    · intro hn1
      rw [HashFinder.SearchSuccessProbability, if_neg hbneg]
      show (if 2 ^ tableSizeBits.toNat < n then _ else _) = _
      rw [if_neg (by omega), fallingProduct_one_input _ n hn1]
    · intro hmn hn
      exact fallingProduct_anti _ hts n m hmn hn

/-- Witness for claim C9 at table-size bits 6 and input counts 2 ≤ 25. -/
theorem estimator_properties_witness :
    HashFinder.SearchSuccessProbability ⟨[]⟩ 6 25 1024 =
      (fallingProduct (2 ^ (6 : Int).toNat) 25, none) ∧
    HashFinder.SearchSuccessProbability ⟨[]⟩ 6 1 1024 = (1, none) ∧
    HashFinder.SearchSuccessProbability ⟨[]⟩ 0 25 1024 =
      (0, some "zero/negative bits for table size or too large") ∧
    HashFinder.SearchSuccessProbability ⟨[]⟩ 6 65 1024 =
      (0, some "input count exceeds table size") ∧
    fallingProduct (2 ^ (6 : Int).toNat) 25 ≤ fallingProduct (2 ^ (6 : Int).toNat) 2 := by
  refine ⟨?_, ?_, ?_, ?_, ?_⟩
  · exact (((estimator_properties ⟨[]⟩ 6 2 25 1024).2 (by decide) (by decide)).2.1
      (by decide)).1
  · exact ((estimator_properties ⟨[]⟩ 6 2 1 1024).2 (by decide) (by decide)).2.2.1
      (by decide)
  · exact (estimator_properties ⟨[]⟩ 0 2 25 1024).1 (by decide)
  · exact ((estimator_properties ⟨[]⟩ 6 2 65 1024).2 (by decide) (by decide)).1
      (by decide)
  · exact ((estimator_properties ⟨[]⟩ 6 2 25 1024).2 (by decide) (by decide)).2.2.2
      (by decide) (by decide)

/-! Witnesses for the remaining claims with hypotheses, each applying its
claim theorem at a concrete input. -/

/-- Witness for claim C1: a one-input search succeeds on the first attempt
and the returned family's masked hashes are duplicate free. -/
theorem search_success_is_perfect_hash_witness :
    (maskedHashes ⟨⟨0, 1, 4, 1, false, OpAdd⟩, [⟨0, 1, 4, 1, false, OpAdd⟩]⟩
      (2 ^ (1 : Int).toNat - 1) [[97]]).Nodup :=
  (search_success_is_perfect_hash ⟨[]⟩
    ⟨⟨0, 1, 4, 1, false, OpAdd⟩, [⟨0, 1, 4, 1, false, OpAdd⟩]⟩ 1 [[97]] 1 ⟨[1, 0]⟩
    ⟨⟨0, 1, 4, 1, false, OpAdd⟩, [⟨0, 1, 4, 1, false, OpAdd⟩]⟩ 1 (by decide)).2.2

/-- Witness for amended claim C2: a concrete tame configured family searched
over a duplicated input list. -/
theorem search_duplicates_never_succeed_witness :
    (∀ (fuel : Nat) (phf phf' : HashFinder) (hs' : HashSequential) (n : Nat),
      HashFinder.Search phf ⟨⟨0, 1, 4, 1, false, OpAdd⟩, [⟨0, 1, 3, 1, false, OpAdd⟩]⟩
        1 [[97], [97]] fuel ≠ .ok phf' hs' n none) ∧
    ∃ N, stepsToDone (spaceBound ⟨⟨0, 1, 4, 1, false, OpAdd⟩, [⟨0, 1, 3, 1, false, OpAdd⟩]⟩)
        ⟨⟨0, 1, 4, 1, false, OpAdd⟩, [⟨0, 1, 3, 1, false, OpAdd⟩]⟩ = some N ∧
      N ≤ spaceBound ⟨⟨0, 1, 4, 1, false, OpAdd⟩, [⟨0, 1, 3, 1, false, OpAdd⟩]⟩ ∧
      ∀ (phf : HashFinder) (fuel : Nat),
        spaceBound ⟨⟨0, 1, 4, 1, false, OpAdd⟩, [⟨0, 1, 3, 1, false, OpAdd⟩]⟩ ≤ fuel →
        ∃ hm' hs', HashFinder.Search phf
            ⟨⟨0, 1, 4, 1, false, OpAdd⟩, [⟨0, 1, 3, 1, false, OpAdd⟩]⟩
            1 [[97], [97]] fuel = .ok ⟨hm'⟩ hs' N (some .noCoefficientsFound) :=
  search_duplicates_never_succeed ⟨⟨0, 0, 4, 1, false, 0⟩, [⟨0, 0, 3, 1, false, 0⟩]⟩
    ⟨⟨0, 1, 4, 1, false, OpAdd⟩, [⟨0, 1, 3, 1, false, OpAdd⟩]⟩ 16 (by rfl) (by decide)
    (by decide) (by decide) 1 [[97], [97]] (by decide) (by decide) (by decide)

/-- Witness for amended claim C3: the same tame family terminates within the
range-size product bound. -/
theorem search_terminates_and_bound_witness :
    ∃ fuel phf' hs' n e,
      HashFinder.Search ⟨[]⟩ ⟨⟨0, 1, 4, 1, false, OpAdd⟩, [⟨0, 1, 3, 1, false, OpAdd⟩]⟩
          1 [[97]] fuel = .ok phf' hs' n e ∧
        n ≤ spaceBound ⟨⟨0, 1, 4, 1, false, OpAdd⟩, [⟨0, 1, 3, 1, false, OpAdd⟩]⟩ :=
  search_terminates_and_bound ⟨⟨0, 0, 4, 1, false, 0⟩, [⟨0, 0, 3, 1, false, 0⟩]⟩
    ⟨⟨0, 1, 4, 1, false, OpAdd⟩, [⟨0, 1, 3, 1, false, OpAdd⟩]⟩ 16 (by rfl) (by decide)
    (by decide) (by decide) ⟨[]⟩ 1 [[97]]

/-- Witness for claim C6: both precondition failures at concrete inputs. -/
theorem search_precondition_failures_witness :
    HashFinder.Search ⟨[]⟩ emptyCoefs 0 [[97]] 3 =
      .ok ⟨[]⟩ emptyCoefs 0 (some .badTableSizeBits) ∧
    HashFinder.Search ⟨[]⟩ emptyCoefs 1 [] 3 =
      .ok ⟨[]⟩ emptyCoefs 0 (some .zeroInputs) :=
  ⟨(search_precondition_failures ⟨[]⟩ emptyCoefs 0 [[97]] 3).1 (by decide),
   (search_precondition_failures ⟨[]⟩ emptyCoefs 1 [] 3).2.1 (by decide) (by decide) rfl⟩

/-- Witness for claim C7: the masked index of a concrete hash value is inside
the two-slot table. -/
theorem search_index_in_bounds_witness :
    98 &&& (2 ^ (1 : Int).toNat - 1) < 2 ^ (1 : Int).toNat :=
  search_index_in_bounds ⟨⟨0, 1, 4, 1, false, OpAdd⟩, [⟨0, 1, 4, 1, false, OpAdd⟩]⟩
    [97] 1 98 (by decide) (by decide) (by decide)

/-- Witness for claim C8: byte index 5 is out of range for a one-byte string
and contributes zero. -/
theorem apply_out_of_range_contributes_zero_witness :
    Coef.Apply ⟨5, 3, 10, 1, false, OpAdd⟩ 7 [97] = combineOp OpAdd 7 0 :=
  (apply_out_of_range_contributes_zero ⟨5, 3, 10, 1, false, OpAdd⟩ 7 [97]
    (by decide) (by decide)).2.1 (by decide)

/-- Witness for claim C10: `Hash` is defined on the empty string even with
out-of-range positive and negative byte indexes. -/
theorem hash_total_on_all_strings_witness :
    (HashSequential.Hash
      ⟨⟨0, 1, 4, 1, false, OpAdd⟩,
        [⟨3, 1, 4, 1, false, OpXor⟩, ⟨-2, 1, 4, 1, false, OpMul⟩]⟩ []).isSome :=
  hash_total_on_all_strings _ [] (by decide) (by decide)

end Perfect
